import Mathlib

/-!
Verification development for the mpytool Sublime Text plugin
(single source file: mpy_tool.py).

Python strings are modeled as lists of characters (PyStr).  Each
definition below embeds a function or method of mpy_tool.py; the
comment above it names the source symbol.
-/

set_option maxRecDepth 4000

/-- Python strings are modeled as lists of characters. -/
abbrev PyStr := List Char

/-- Conversion from a Lean string literal to the character-list model. -/
def pyS (s : String) : PyStr := s.toList

/-- The relevant fields of a parsed .mpyproject configuration as read by the
command classes: config.get of port, deploy and exclude.  A missing key is
none. -/
structure MpyConfig where
  port : Option PyStr
  deploy : Option (List (PyStr × List PyStr))
  exclude : Option (List PyStr)

/-- Destination normalization used by MpySyncCommand.run_sync and
add_to_deploy: if not dest.startswith(slash) then prepend slash. -/
def normalize_dest (dest : PyStr) : PyStr :=
  match dest with
  | '/' :: _ => dest
  | _ => '/' :: dest

/-- The loop of MpySyncCommand.run_sync that builds the cp sub-commands.
State is the accumulated argument list and the first flag; entries whose
source list is empty are skipped; a separator token is inserted before every
sub-command except the first. -/
def syncBuild : List (PyStr × List PyStr) → Bool → List PyStr → List PyStr × Bool
  | [], first, acc => (acc, first)
  | (dest, sources) :: rest, first, acc =>
    if sources = [] then
      syncBuild rest first acc
    else
      syncBuild rest false
        (acc ++ (if first then [] else [pyS "--"]) ++ [pyS "cp"] ++ sources ++
          [':' :: normalize_dest dest])

/-- The argument prefix of MpySyncCommand.run_sync: the -p pair when the
port is not auto, then one -e pair per exclude pattern. -/
def sync_pre (c : MpyConfig) : List PyStr :=
  (if c.port.getD (pyS "auto") ≠ pyS "auto" then
    [pyS "-p", c.port.getD (pyS "auto")] else []) ++
  (c.exclude.getD []).flatMap (fun pat => [pyS "-e", pat])

/-- MpySyncCommand.run_sync, given the loaded configuration.  Returns none
when the nothing-to-deploy dialog is shown (no process spawned), or some
args when run_mpytool is called with that argument vector.  Mirrors the
source: deploy defaults to the mapping sending the root to the project
directory when the configured deploy mapping is falsy (absent or empty). -/
def run_sync (c : MpyConfig) (monitor : Bool) : Option (List PyStr) :=
  let deploy := match c.deploy with
    | none => [(pyS "/", [pyS "./"])]
    | some d => if d = [] then [(pyS "/", [pyS "./"])] else d
  match syncBuild deploy true (sync_pre c) with
  | (_, true) => none
  | (args, false) =>
      some (args ++ [pyS "--", pyS "reset"] ++
        if monitor then [pyS "--", pyS "monitor"] else [])

/-- MpyTreeCommand.run, given the loaded configuration: the -p pair when
the port is not auto, then the tree sub-command.  The exclude list is not
read. -/
def tree_run (c : MpyConfig) : List PyStr :=
  (if c.port.getD (pyS "auto") ≠ pyS "auto" then
    [pyS "-p", c.port.getD (pyS "auto")] else []) ++ [pyS "tree"]

/-- One cp block of the sync argument vector: the cp token, the sources,
then the colon-prefixed normalized destination. -/
def cp_block (e : PyStr × List PyStr) : List PyStr :=
  pyS "cp" :: e.2 ++ [':' :: normalize_dest e.1]

/-- The cp blocks of all entries, joined with the separator token. -/
def cp_chain : List (PyStr × List PyStr) → List PyStr
  | [] => []
  | e :: rest => cp_block e ++ rest.flatMap (fun e2 => pyS "--" :: cp_block e2)

/-!  The process manager (MpyProcessManager).  The world holds the single
tracked slot together with the liveness of every OS process; process ids
are natural numbers; poll() is None is modeled by alive. -/

structure ProcWorld where
  slot : Option Nat
  alive : Nat → Bool

/-- MpyProcessManager.stop: when a process is tracked and still running,
terminate it and clear the slot; otherwise do nothing. -/
def pm_stop (w : ProcWorld) : ProcWorld :=
  match w.slot with
  | some p =>
    if w.alive p then
      { slot := none, alive := fun q => if q = p then false else w.alive q }
    else w
  | none => w

/-- MpyProcessManager.set: stop any previous process, then track the new
one. -/
def pm_set (w : ProcWorld) (p : Nat) : ProcWorld :=
  let w2 := pm_stop w
  { w2 with slot := some p }

/-- MpyProcessManager.is_running. -/
def pm_is_running (w : ProcWorld) : Bool :=
  match w.slot with
  | some p => w.alive p
  | none => false

/-- Popen: a new OS process comes into existence running. -/
def pm_spawn (w : ProcWorld) (p : Nat) : ProcWorld :=
  { w with alive := fun q => if q = p then true else w.alive q }

/-- MpyToolCommand.run_process start sequence: stop any running process,
spawn the new one, then record it in the manager. -/
def run_process_start (w : ProcWorld) (p : Nat) : ProcWorld :=
  pm_set (pm_spawn (pm_stop w) p) p

/-! String utilities modeling the Python methods used by the plugin:
strip, startswith, the in operator, and split on a separator. -/

/-- The whitespace characters stripped by str.strip (ASCII range). -/
def isPyWs (c : Char) : Bool :=
  c = ' ' || c = '\t' || c = '\n' || c = '\r' || c.toNat = 11 || c.toNat = 12

/-- str.strip: drop whitespace from both ends. -/
def pyStrip (s : PyStr) : PyStr :=
  ((s.dropWhile isPyWs).reverse.dropWhile isPyWs).reverse

/-- str.startswith, on character lists. -/
def isPreL : PyStr → PyStr → Bool
  | [], _ => true
  | _ :: _, [] => false
  | a :: as, b :: bs => a == b && isPreL as bs

/-- The Python in operator on strings: needle occurs as a contiguous
substring of hay. -/
def containsSub (needle : PyStr) : PyStr → Bool
  | [] => isPreL needle []
  | c :: rest => isPreL needle (c :: rest) || containsSub needle rest

/-- str.split on a single separator character. -/
def splitOnChar (sep : Char) : PyStr → List PyStr
  | [] => [[]]
  | c :: rest =>
    if c = sep then [] :: splitOnChar sep rest
    else
      match splitOnChar sep rest with
      | l :: ls => (c :: l) :: ls
      | [] => [[c]]

/-- The sentinel phrase of the ambiguous-port error of the external tool. -/
def multiPortsSentinel : PyStr := pyS "Multiple serial ports found"

/-- The device-path prefix recognized by the port parser. -/
def devPre : PyStr := pyS "/dev/"

/-- The loop of MpyToolCommand.parse_ports over the split lines: the
sentinel line turns collection on; collected lines are the stripped lines
with the device prefix; the first non-blank non-matching line while
collecting breaks the loop. -/
def parsePortsLoop : List PyStr → Bool → List PyStr
  | [], _ => []
  | line :: rest, inPorts =>
    if containsSub multiPortsSentinel line then parsePortsLoop rest true
    else if inPorts && isPreL devPre (pyStrip line) then
      pyStrip line :: parsePortsLoop rest inPorts
    else if inPorts && !(pyStrip line == []) && !(isPreL devPre (pyStrip line)) then
      []
    else parsePortsLoop rest inPorts

/-- MpyToolCommand.parse_ports. -/
def parse_ports (output : PyStr) : List PyStr :=
  parsePortsLoop (splitOnChar '\n' output) false

/-! add_to_deploy.  Python dicts are modeled as association lists in
insertion order; assignment to an absent key appends, to a present key
replaces in place. -/

/-- Dict lookup on an association list. -/
def lookupL {α : Type} (k : PyStr) : List (PyStr × α) → Option α
  | [] => none
  | (k2, v) :: rest => if k2 = k then some v else lookupL k rest

/-- Dict assignment to a present key: replace the value in place. -/
def setFirst {α : Type} (k : PyStr) (v : α) : List (PyStr × α) → List (PyStr × α)
  | [] => []
  | (k2, v2) :: rest =>
    if k2 = k then (k2, v) :: rest else (k2, v2) :: setFirst k v rest

/-- The effective deploy mapping used by add_to_deploy: when the loaded
deploy mapping is falsy (absent or empty), substitute the default mapping
when add_default is set, the empty mapping otherwise. -/
def eff_deploy (deploy0 : Option (List (PyStr × List PyStr))) (add_default : Bool) :
    List (PyStr × List PyStr) :=
  let dflt := if add_default then [(pyS "/", [pyS "./"])] else []
  match deploy0 with
  | none => dflt
  | some d => if d = [] then dflt else d

/-- add_to_deploy, at the level of the deploy mapping of the configuration
file.  Returns none when the function returns without saving (the path is
already present), and some of the new deploy mapping when the file is
rewritten. -/
def add_to_deploy (deploy0 : Option (List (PyStr × List PyStr)))
    (rel_path dest : PyStr) (add_default : Bool) :
    Option (List (PyStr × List PyStr)) :=
  let deploy := eff_deploy deploy0 add_default
  let dest2 := normalize_dest dest
  let deploy2 :=
    if lookupL dest2 deploy = none then deploy ++ [(dest2, [])] else deploy
  let srcs := (lookupL dest2 deploy2).getD []
  if rel_path ∈ srcs then none
  else some (setFirst dest2 (srcs ++ [rel_path]) deploy2)

/-! The configuration file: save_mpyproject (json.dump with indent 4) and
load_mpyproject (strip, remove trailing commas, json.loads).  JSON values
are modeled by an inductive type; numbers are modeled as integers (the
plugin never writes numeric fields). -/

inductive Json where
  | null : Json
  | bool (b : Bool) : Json
  | num (n : Int) : Json
  | str (s : PyStr) : Json
  | arr (items : List Json) : Json
  | obj (fields : List (PyStr × Json)) : Json

/-- The opening brace character. -/
def lb : Char := Char.ofNat 123

/-- The closing brace character. -/
def rb : Char := Char.ofNat 125

/-- Lower-case hex digit characters. -/
def hexDigitChar (n : Nat) : Char := (pyS "0123456789abcdef").getD n 'f'

/-- The escape applied by json.dump to one string character.  Non-ASCII
characters are passed through unescaped here; the default dump also
hex-escapes them, which round-trips identically and is not modeled. -/
def escapeChar (c : Char) : PyStr :=
  if c = '"' then ['\\', '"']
  else if c = '\\' then ['\\', '\\']
  else if c = '\n' then ['\\', 'n']
  else if c = '\t' then ['\\', 't']
  else if c = '\r' then ['\\', 'r']
  else if c.toNat = 8 then ['\\', 'b']
  else if c.toNat = 12 then ['\\', 'f']
  else if c.toNat < 32 then
    ['\\', 'u', '0', '0', hexDigitChar (c.toNat / 16), hexDigitChar (c.toNat % 16)]
  else [c]

/-- json.dump escaping of a whole string. -/
def escapeStr (s : PyStr) : PyStr := s.flatMap escapeChar

/-- A serialized string literal. -/
def serStr (s : PyStr) : PyStr := '"' :: (escapeStr s ++ ['"'])

/-- Indentation of n spaces. -/
def ind (n : Nat) : PyStr := List.replicate n ' '

/-- The values occurring in a .mpyproject configuration written by
save_mpyproject: strings (name, port), arrays of strings (exclude), and
objects mapping strings to arrays of strings (deploy). -/
inductive ConfigVal where
  | vStr (s : PyStr)
  | vArr (items : List PyStr)
  | vObj (fields : List (PyStr × List PyStr))
deriving DecidableEq

/-- A configuration object: ordered fields of a Python dict. -/
abbrev ConfigObj := List (PyStr × ConfigVal)

/-- Items of a serialized string array at the given indent, separated by a
comma, a newline and the indent (the separators of json.dump with
indent 4). -/
def serArrItems : List PyStr → Nat → PyStr
  | [], _ => []
  | [s], _ => serStr s
  | s :: rest, n => serStr s ++ ',' :: '\n' :: (ind n ++ serArrItems rest n)

/-- A serialized string array at the given indent level. -/
def serArr (ss : List PyStr) (n : Nat) : PyStr :=
  match ss with
  | [] => ['[', ']']
  | _ => '[' :: '\n' :: (ind (n + 4) ++ serArrItems ss (n + 4) ++
      '\n' :: (ind n ++ [']']))

/-- Members of a serialized object whose values are string arrays. -/
def serObjItems : List (PyStr × List PyStr) → Nat → PyStr
  | [], _ => []
  | [(k, v)], n => serStr k ++ ':' :: ' ' :: serArr v n
  | (k, v) :: rest, n =>
    serStr k ++ ':' :: ' ' :: serArr v n ++ ',' :: '\n' :: (ind n ++ serObjItems rest n)

/-- A serialized object whose values are string arrays. -/
def serObjAS (fs : List (PyStr × List PyStr)) (n : Nat) : PyStr :=
  match fs with
  | [] => [lb, rb]
  | _ => lb :: '\n' :: (ind (n + 4) ++ serObjItems fs (n + 4) ++
      '\n' :: (ind n ++ [rb]))

/-- A serialized configuration value. -/
def serConfigVal (v : ConfigVal) (n : Nat) : PyStr :=
  match v with
  | .vStr s => serStr s
  | .vArr ss => serArr ss n
  | .vObj fs => serObjAS fs n

/-- Members of the serialized top-level configuration object. -/
def serTopItems : ConfigObj → Nat → PyStr
  | [], _ => []
  | [(k, v)], n => serStr k ++ ':' :: ' ' :: serConfigVal v n
  | (k, v) :: rest, n =>
    serStr k ++ ':' :: ' ' :: serConfigVal v n ++ ',' :: '\n' ::
      (ind n ++ serTopItems rest n)

/-- json.dump of the configuration object with indent 4. -/
def serConfig (c : ConfigObj) : PyStr :=
  match c with
  | [] => [lb, rb]
  | _ => lb :: '\n' :: (ind 4 ++ serTopItems c 4 ++ '\n' :: [rb])

/-- save_mpyproject: json.dump with indent 4, then a final newline. -/
def save_mpyproject (c : ConfigObj) : PyStr := serConfig c ++ ['\n']

/-- The JSON value denoted by a configuration value. -/
def configValJson : ConfigVal → Json
  | .vStr s => Json.str s
  | .vArr ss => Json.arr (ss.map Json.str)
  | .vObj fs => Json.obj (fs.map fun e => (e.1, Json.arr (e.2.map Json.str)))

/-- The JSON value denoted by a configuration object. -/
def configJson (c : ConfigObj) : Json :=
  Json.obj (c.map fun e => (e.1, configValJson e.2))

/-! The trailing-comma removal of load_mpyproject: re.sub of a comma
followed by optional whitespace and a closing bracket, replaced by the
bracket. -/

/-- The whitespace class of the regular expression (ASCII range). -/
def isReWs (c : Char) : Bool :=
  c = ' ' || c = '\t' || c = '\n' || c = '\r' || c.toNat = 11 || c.toNat = 12

/-- Whether the input begins with optional whitespace followed by a
closing square bracket or brace: the remainder of the trailing-comma
pattern after its comma. -/
def armedF : PyStr → Bool
  | [] => false
  | c :: rest => if isReWs c then armedF rest else c = ']' || c = rb

/-- The re.sub scan with fuel: at a comma that begins a match, the comma
and whitespace are dropped, the bracket is kept, and scanning resumes
after the bracket; every other character is copied. -/
def stripTCF : Nat → PyStr → PyStr
  | 0, s => s
  | _ + 1, [] => []
  | fuel + 1, c :: rest =>
    if c = ',' && armedF rest then
      match rest.dropWhile isReWs with
      | [] => []
      | b :: rest2 => b :: stripTCF fuel rest2
    else c :: stripTCF fuel rest

/-- The trailing-comma removal of load_mpyproject. -/
def stripTC (s : PyStr) : PyStr := stripTCF (s.length + 1) s

/-- No comma of the input is followed by optional whitespace and a closing
bracket, so the re.sub scan is the identity. -/
def unarmedAll : PyStr → Bool
  | [] => true
  | c :: rest => (if c = ',' then !armedF rest else true) && unarmedAll rest

/-- Whether the input begins with optional spaces followed by a closing
bracket: what the regular expression can see inside an escaped string,
where the only raw whitespace characters left are spaces. -/
def armedSp : PyStr → Bool
  | [] => false
  | c :: rest => if c = ' ' then armedSp rest else c = ']' || c = rb

/-- A raw string is comma-bracket-free when no comma in it is followed by
optional spaces and a closing square bracket or brace. -/
def cbfStr : PyStr → Bool
  | [] => true
  | c :: rest => (if c = ',' then !armedSp rest else true) && cbfStr rest

/-- All strings of a configuration value are comma-bracket-free. -/
def cbfVal : ConfigVal → Bool
  | .vStr s => cbfStr s
  | .vArr ss => ss.all cbfStr
  | .vObj fs => fs.all fun e => cbfStr e.1 && e.2.all cbfStr

/-- All strings of a configuration object are comma-bracket-free. -/
def cbfObj (c : ConfigObj) : Bool :=
  c.all fun e => cbfStr e.1 && cbfVal e.2

/-! The JSON scanner of json.loads. -/

/-- JSON whitespace. -/
def isJsonWs (c : Char) : Bool := c = ' ' || c = '\t' || c = '\n' || c = '\r'

/-- Skip JSON whitespace. -/
def skipWs (s : PyStr) : PyStr := s.dropWhile isJsonWs

/-- The value of a hex digit. -/
def hexVal (c : Char) : Option Nat :=
  ((pyS "0123456789abcdef").indexOf? c).orElse fun _ =>
    ((pyS "ABCDEF").indexOf? c).map (· + 10)

/-- Decoding of a single-character escape. -/
def escDecode (e : Char) : Option Char :=
  if e = '"' then some '"'
  else if e = '\\' then some '\\'
  else if e = '/' then some '/'
  else if e = 'b' then some (Char.ofNat 8)
  else if e = 'f' then some (Char.ofNat 12)
  else if e = 'n' then some '\n'
  else if e = 'r' then some '\r'
  else if e = 't' then some '\t'
  else none

/-- The string scanner: the input starts after the opening quote; returns
the decoded content and the remainder after the closing quote.  Raw
control characters are rejected, as in the strict mode of json.loads. -/
def parseStringChars : PyStr → Option (PyStr × PyStr)
  | [] => none
  | c :: rest =>
    if c = '"' then some ([], rest)
    else if c = '\\' then
      match rest with
      | 'u' :: h1 :: h2 :: h3 :: h4 :: rest3 =>
        match hexVal h1, hexVal h2, hexVal h3, hexVal h4 with
        | some a, some b, some c2, some d =>
          (parseStringChars rest3).map fun r =>
            (Char.ofNat (((a * 16 + b) * 16 + c2) * 16 + d) :: r.1, r.2)
        | _, _, _, _ => none
      | e :: rest2 =>
        match escDecode e with
        | some c2 => (parseStringChars rest2).map fun r => (c2 :: r.1, r.2)
        | none => none
      | [] => none
    else if c.toNat < 32 then none
    else (parseStringChars rest).map fun r => (c :: r.1, r.2)

/-- Digits taken greedily from the front. -/
def takeDigits : PyStr → PyStr × PyStr
  | [] => ([], [])
  | c :: rest =>
    if c.isDigit then
      match takeDigits rest with
      | (ds, r) => (c :: ds, r)
    else ([], c :: rest)

/-- The numeric value of a digit string. -/
def digitsToNat (ds : PyStr) : Nat := ds.foldl (fun a c => a * 10 + (c.toNat - 48)) 0

/-- Integer literal scanner; fractional parts are outside the model (the
plugin never writes them). -/
def parseNum (input : PyStr) : Option (Json × PyStr) :=
  match input with
  | '-' :: rest =>
    match takeDigits rest with
    | ([], _) => none
    | (ds, r) => some (Json.num (-(digitsToNat ds : Int)), r)
  | _ =>
    match takeDigits input with
    | ([], _) => none
    | (ds, r) => some (Json.num (digitsToNat ds), r)

/-- The modes of the recursive-descent scanner: a value, the items of an
array after its opening bracket, the members of an object after its
opening brace. -/
inductive PMode where
  | val | items | members

/-- The recursive-descent JSON scanner, with fuel for the nesting and
element recursion. -/
def parseF : Nat → PMode → PyStr → Option (Json × PyStr)
  | 0, _, _ => none
  | fuel + 1, PMode.val, input =>
    match skipWs input with
    | [] => none
    | c :: rest =>
      if c = '"' then (parseStringChars rest).map fun r => (Json.str r.1, r.2)
      else if c = lb then
        match skipWs rest with
        | b :: r2 => if b = rb then some (Json.obj [], r2) else parseF fuel PMode.members rest
        | [] => none
      else if c = '[' then
        match skipWs rest with
        | b :: r2 => if b = ']' then some (Json.arr [], r2) else parseF fuel PMode.items rest
        | [] => none
      else if c = 't' then
        if isPreL (pyS "rue") rest then some (Json.bool true, rest.drop 3) else none
      else if c = 'f' then
        if isPreL (pyS "alse") rest then some (Json.bool false, rest.drop 4) else none
      else if c = 'n' then
        if isPreL (pyS "ull") rest then some (Json.null, rest.drop 3) else none
      else parseNum (c :: rest)
  | fuel + 1, PMode.items, input =>
    match parseF fuel PMode.val input with
    | none => none
    | some (v, r) =>
      match skipWs r with
      | ',' :: r2 =>
        match parseF fuel PMode.items r2 with
        | some (Json.arr vs, r3) => some (Json.arr (v :: vs), r3)
        | _ => none
      | b :: r2 => if b = ']' then some (Json.arr [v], r2) else none
      | [] => none
  | fuel + 1, PMode.members, input =>
    match skipWs input with
    | c :: rest =>
      if c = '"' then
        match parseStringChars rest with
        | none => none
        | some (k, r) =>
          match skipWs r with
          | b :: r2 =>
            if b = ':' then
              match parseF fuel PMode.val r2 with
              | none => none
              | some (v, r3) =>
                match skipWs r3 with
                | ',' :: r4 =>
                  match parseF fuel PMode.members r4 with
                  | some (Json.obj ms, r5) => some (Json.obj ((k, v) :: ms), r5)
                  | _ => none
                | b2 :: r4 => if b2 = rb then some (Json.obj [(k, v)], r4) else none
                | [] => none
            else none
          | [] => none
      else none
    | [] => none

/-- json.loads: scan one value and require only whitespace after it. -/
def parseJson (input : PyStr) : Option Json :=
  match parseF (input.length + 1) PMode.val input with
  | some (j, rest) => if skipWs rest = [] then some j else none
  | none => none

/-- load_mpyproject: strip the content, treat empty content as the empty
configuration, remove trailing commas, parse, and treat a parse failure
as the empty configuration. -/
def load_mpyproject (content : PyStr) : Json :=
  let c := pyStrip content
  if c = [] then Json.obj []
  else
    match parseJson (stripTC c) with
    | some j => j
    | none => Json.obj []

/-! Cost bounds for the scanner fuel, used to relate the fuel chosen by
parseJson to the nesting of a serialized configuration. -/

/-- Fuel needed by the scanner for the members of a deploy-style object. -/
def costMA (fs : List (PyStr × List PyStr)) : Nat :=
  (fs.map fun e => e.2.length + 3).sum

/-- Fuel needed by the scanner for one configuration value. -/
def valCostTop : ConfigVal → Nat
  | .vStr _ => 1
  | .vArr ss => ss.length + 2
  | .vObj fs => costMA fs + 1

/-- Fuel needed by the scanner for the top-level members. -/
def costTM (c : ConfigObj) : Nat :=
  (c.map fun e => valCostTop e.2 + 1).sum

/-! add_to_deploy at the level of the configuration file: the program
loads the file with load_mpyproject, mutates the deploy mapping, and
writes back with save_mpyproject.  Readers from loaded JSON values back
into the configuration shape written by save_mpyproject; values outside
that shape are outside the model. -/

/-- Reader for an array of string literals in a loaded JSON value. -/
def jsonStrList : List Json → Option (List PyStr)
  | [] => some []
  | Json.str s :: rest => (jsonStrList rest).map fun r => s :: r
  | _ => none

/-- Reader for the fields of a deploy-style object in a loaded JSON
value. -/
def jsonDeployFields : List (PyStr × Json) → Option (List (PyStr × List PyStr))
  | [] => some []
  | (k, Json.arr items) :: rest =>
    match jsonStrList items, jsonDeployFields rest with
    | some ss, some r => some ((k, ss) :: r)
    | _, _ => none
  | _ => none

/-- Reader from a loaded JSON value back into a configuration value. -/
def jsonToConfigVal : Json → Option ConfigVal
  | Json.str s => some (ConfigVal.vStr s)
  | Json.arr items => (jsonStrList items).map ConfigVal.vArr
  | Json.obj fields => (jsonDeployFields fields).map ConfigVal.vObj
  | _ => none

/-- Reader for the fields of a loaded configuration object. -/
def jsonToConfigFields : List (PyStr × Json) → Option ConfigObj
  | [] => some []
  | (k, v) :: rest =>
    match jsonToConfigVal v, jsonToConfigFields rest with
    | some cv, some r => some ((k, cv) :: r)
    | _, _ => none

/-- Reader from a loaded JSON value to a configuration object. -/
def jsonToConfigObj : Json → Option ConfigObj
  | Json.obj fields => jsonToConfigFields fields
  | _ => none

/-- config.get of the deploy mapping on a loaded configuration object. -/
def configDeploy (c : ConfigObj) : Option (List (PyStr × List PyStr)) :=
  match lookupL (pyS "deploy") c with
  | some (ConfigVal.vObj d) => some d
  | _ => none

/-- The dict assignment of the deploy key performed before saving:
replace the value in place when the key is present, append it
otherwise. -/
def setConfigDeploy (c : ConfigObj) (d : List (PyStr × List PyStr)) : ConfigObj :=
  if lookupL (pyS "deploy") c = none then c ++ [(pyS "deploy", ConfigVal.vObj d)]
  else setFirst (pyS "deploy") (ConfigVal.vObj d) c

/-- add_to_deploy at the level of the configuration file: load the file,
read and update the deploy mapping, and return the newly written file
content, or none when the function returns without saving. -/
def add_to_deploy_file (content rel_path dest : PyStr) (add_default : Bool) :
    Option PyStr :=
  match jsonToConfigObj (load_mpyproject content) with
  | none => none
  | some cfg =>
    match add_to_deploy (configDeploy cfg) rel_path dest add_default with
    | none => none
    | some d2 => some (save_mpyproject (setConfigDeploy cfg d2))

/-! Theorems. -/

theorem syncBuild_false (entries : List (PyStr × List PyStr)) (acc : List PyStr) :
    syncBuild entries false acc =
      (acc ++ (entries.filter (fun e => !decide (e.2 = []))).flatMap
        (fun e => pyS "--" :: cp_block e), false) := by
  induction entries generalizing acc with
  | nil => simp [syncBuild]
  | cons e rest ih =>
    obtain ⟨dest, sources⟩ := e
    by_cases hs : sources = []
    · simp [syncBuild, hs, ih]
    · simp only [syncBuild, if_neg hs, ih, List.filter_cons]
      simp [hs, cp_block, List.append_assoc]

theorem syncBuild_true (entries : List (PyStr × List PyStr)) (acc : List PyStr)
    (h : entries.filter (fun e => !decide (e.2 = [])) ≠ []) :
    syncBuild entries true acc =
      (acc ++ cp_chain (entries.filter (fun e => !decide (e.2 = []))), false) := by
  induction entries generalizing acc with
  | nil => simp at h
  | cons e rest ih =>
    obtain ⟨dest, sources⟩ := e
    by_cases hs : sources = []
    · have h' : rest.filter (fun e => !decide (e.2 = [])) ≠ [] := by
        simpa [List.filter_cons, hs] using h
      simp [syncBuild, hs, ih _ h', List.filter_cons]
    · simp only [syncBuild, if_neg hs, syncBuild_false, List.filter_cons]
      simp [hs, cp_chain, cp_block, List.append_assoc]

theorem syncBuild_true_all_empty (entries : List (PyStr × List PyStr)) (acc : List PyStr)
    (h : entries.filter (fun e => !decide (e.2 = [])) = []) :
    syncBuild entries true acc = (acc, true) := by
  induction entries with
  | nil => simp [syncBuild]
  | cons e rest ih =>
    obtain ⟨dest, sources⟩ := e
    by_cases hs : sources = []
    · have h' : rest.filter (fun e => !decide (e.2 = [])) = [] := by
        simpa [List.filter_cons, hs] using h
      simp [syncBuild, hs, ih h']
    · simp [List.filter_cons, hs] at h

/-- C1 counterexample: for the configuration with port auto and no deploy
mapping, the sync action does not report the nothing-to-deploy error; it
invokes the external tool with the default deploy arguments. -/
theorem sync_absent_deploy_invokes_tool :
    run_sync ⟨some (pyS "auto"), none, none⟩ false ≠ none ∧
    run_sync ⟨some (pyS "auto"), none, none⟩ false =
      some [pyS "cp", pyS "./", pyS ":/", pyS "--", pyS "reset"] := by
  constructor <;> decide

/-- C1 amended: for every configuration whose deploy mapping is empty or
absent, sync substitutes the default deploy mapping (project root to device
root) and invokes the external tool with a single cp of the project
directory to the device root followed by reset; no nothing-to-deploy error
is reported. -/
theorem sync_empty_or_absent_deploy_uses_default (c : MpyConfig) (m : Bool)
    (h : c.deploy = none ∨ c.deploy = some []) :
    run_sync c m =
      some (sync_pre c ++ [pyS "cp", pyS "./", pyS ":/", pyS "--", pyS "reset"] ++
        if m then [pyS "--", pyS "monitor"] else []) := by
  have hb : syncBuild [(pyS "/", [pyS "./"])] true (sync_pre c) =
      (sync_pre c ++ [pyS "cp", pyS "./", pyS ":/"], false) := by
    simp [syncBuild, normalize_dest, pyS]
  rcases h with h | h <;>
    simp [run_sync, h, hb, List.append_assoc]

/-- C1 amended witness at a concrete configuration with absent deploy. -/
theorem sync_empty_or_absent_deploy_uses_default_witness :
    run_sync ⟨none, none, none⟩ false =
      some [pyS "cp", pyS "./", pyS ":/", pyS "--", pyS "reset"] := by
  have h := sync_empty_or_absent_deploy_uses_default ⟨none, none, none⟩ false
    (Or.inl rfl)
  simpa [sync_pre] using h

/-- C2 counterexample: a configuration with two destination keys, one of
which has an empty source list, yields only one cp sub-command; the second
destination never appears in the argument vector. -/
theorem sync_empty_sources_key_skipped :
    run_sync ⟨some (pyS "auto"),
        some [(pyS "/a", [pyS "f.py"]), (pyS "/b", [])], none⟩ false =
      some [pyS "cp", pyS "f.py", pyS ":/a", pyS "--", pyS "reset"] ∧
    pyS ":/b" ∉ [pyS "cp", pyS "f.py", pyS ":/a", pyS "--", pyS "reset"] := by
  constructor <;> decide

/-- C2 amended: for every configuration whose deploy mapping has at least
one destination with a non-empty source list, the sync argument vector is
the port and exclude prefix, then exactly one cp sub-command per
destination key whose source list is non-empty (in mapping order, joined
by the separator token), each cp followed by that destination of sources
and then the colon-prefixed normalized destination, then the reset
sub-command. -/
theorem sync_cp_per_nonempty_destination (c : MpyConfig) (m : Bool)
    (d : List (PyStr × List PyStr)) (hd : c.deploy = some d)
    (hne : d.filter (fun e => !decide (e.2 = [])) ≠ []) :
    run_sync c m =
      some (sync_pre c ++ cp_chain (d.filter (fun e => !decide (e.2 = []))) ++
        [pyS "--", pyS "reset"] ++
        if m then [pyS "--", pyS "monitor"] else []) := by
  have hdne : d ≠ [] := by
    rintro rfl
    simp at hne
  simp [run_sync, hd, hdne, syncBuild_true _ _ hne, List.append_assoc]

/-- C2 amended witness: two destinations with non-empty sources, one
lacking the leading slash. -/
theorem sync_cp_per_nonempty_destination_witness :
    run_sync ⟨none, some [(pyS "lib", [pyS "a.py"]), (pyS "/", [pyS "./"])], none⟩
        false =
      some [pyS "cp", pyS "a.py", pyS ":/lib", pyS "--",
        pyS "cp", pyS "./", pyS ":/", pyS "--", pyS "reset"] := by
  have h := sync_cp_per_nonempty_destination
    ⟨none, some [(pyS "lib", [pyS "a.py"]), (pyS "/", [pyS "./"])], none⟩ false
    [(pyS "lib", [pyS "a.py"]), (pyS "/", [pyS "./"])] rfl (by decide)
  simpa [sync_pre, cp_chain, cp_block, normalize_dest, pyS] using h

/-- C5: the process manager tracks at most one process; starting a new
invocation terminates any previously tracked running process, afterwards
exactly the new instance is tracked and running, and after a stop no
tracked instance is running. -/
theorem process_manager_single_instance (w : ProcWorld) (p : Nat)
    (hfresh : ∀ q, w.slot = some q → p ≠ q) :
    (run_process_start w p).slot = some p ∧
    (run_process_start w p).alive p = true ∧
    (∀ q, w.slot = some q → w.alive q = true →
      (run_process_start w p).alive q = false) ∧
    pm_is_running (pm_stop w) = false := by
  obtain ⟨slot, alive⟩ := w
  rcases slot with _ | q
  · refine ⟨rfl, ?_, ?_, ?_⟩
    · simp [run_process_start, pm_set, pm_stop, pm_spawn]
    · intro q hq
      exact absurd hq (by simp)
    · rfl
  · have hpq : p ≠ q := hfresh q rfl
    by_cases ha : alive q = true
    · refine ⟨rfl, ?_, ?_, ?_⟩
      · simp [run_process_start, pm_set, pm_stop, pm_spawn, ha, hpq]
      · intro q2 hq2 _
        obtain rfl : q = q2 := by simpa using hq2
        simp [run_process_start, pm_set, pm_stop, pm_spawn, ha, hpq, Ne.symm hpq]
      · simp [pm_stop, pm_is_running, ha]
    · simp only [Bool.not_eq_true] at ha
      refine ⟨rfl, ?_, ?_, ?_⟩
      · simp [run_process_start, pm_set, pm_stop, pm_spawn, ha, hpq, Ne.symm hpq]
      · intro q2 hq2 ha2
        obtain rfl : q = q2 := by simpa using hq2
        simp only at ha2
        rw [ha] at ha2
        exact absurd ha2 (by simp)
      · simp [pm_stop, pm_is_running, ha]

/-- C5 witness: world tracking running process 0, starting process 1. -/
theorem process_manager_single_instance_witness :
    (run_process_start ⟨some 0, fun q => decide (q = 0)⟩ 1).slot = some 1 ∧
    (run_process_start ⟨some 0, fun q => decide (q = 0)⟩ 1).alive 1 = true ∧
    (run_process_start ⟨some 0, fun q => decide (q = 0)⟩ 1).alive 0 = false ∧
    pm_is_running (pm_stop ⟨some 0, fun q => decide (q = 0)⟩) = false := by
  have h := process_manager_single_instance ⟨some 0, fun q => decide (q = 0)⟩ 1
    (by intro q hq; simp only [Option.some.injEq] at hq; omega)
  exact ⟨h.1, h.2.1, h.2.2.1 0 rfl (by decide), h.2.2.2⟩

/-- C6: the configuration with deploy mapping sending the device root to
the project directory and port auto produces exactly the argument vector
cp, the project directory, the colon-root destination, the separator and
reset. -/
theorem sync_end_to_end_default :
    run_sync ⟨some (pyS "auto"), some [(pyS "/", [pyS "./"])], none⟩ false =
      some [pyS "cp", pyS "./", pyS ":/", pyS "--", pyS "reset"] := by
  decide

/-- C7: the configuration with a concrete port and an exclude list yields,
for the tree action, exactly the -p pair and the tree sub-command; the
exclude list contributes nothing for this action, whatever it is. -/
theorem tree_end_to_end_port_exclude :
    tree_run ⟨some (pyS "/dev/ttyUSB0"), none, some [pyS "*.pyc"]⟩ =
      [pyS "-p", pyS "/dev/ttyUSB0", pyS "tree"] ∧
    ∀ ex : Option (List PyStr),
      tree_run ⟨some (pyS "/dev/ttyUSB0"), none, ex⟩ =
        tree_run ⟨some (pyS "/dev/ttyUSB0"), none, some [pyS "*.pyc"]⟩ := by
  constructor
  · decide
  · intro ex
    rfl

/-- C8: the destination normalization prepends a slash exactly when the
leading slash is absent, leaves slash-led strings unchanged, and is
idempotent. -/
theorem normalize_dest_spec (d : PyStr) :
    (d.head? ≠ some '/' → normalize_dest d = '/' :: d) ∧
    (d.head? = some '/' → normalize_dest d = d) ∧
    normalize_dest (normalize_dest d) = normalize_dest d := by
  match d with
  | [] => exact ⟨fun _ => rfl, by simp, rfl⟩
  | c :: cs =>
    by_cases hc : c = '/'
    · subst hc
      exact ⟨by intro h; exact absurd rfl h, fun _ => rfl, rfl⟩
    · have h1 : normalize_dest (c :: cs) = '/' :: c :: cs := by
        unfold normalize_dest
        split
        · next tail heq =>
            injection heq with h2 _
            exact absurd h2 hc
        · rfl
      refine ⟨fun _ => h1, by simp [hc], ?_⟩
      rw [h1]
      rfl

/-- C8 witness at concrete destinations with and without the slash. -/
theorem normalize_dest_spec_witness :
    normalize_dest (pyS "lib") = '/' :: pyS "lib" ∧
    normalize_dest (pyS "/lib") = pyS "/lib" ∧
    normalize_dest (normalize_dest (pyS "lib")) = normalize_dest (pyS "lib") := by
  exact ⟨(normalize_dest_spec (pyS "lib")).1 (by decide),
    (normalize_dest_spec (pyS "/lib")).2.1 (by decide),
    (normalize_dest_spec (pyS "lib")).2.2⟩

theorem splitOnChar_no_sep (sep : Char) (l : PyStr) (h : sep ∉ l) :
    splitOnChar sep l = [l] := by
  induction l with
  | nil => rfl
  | cons c rest ih =>
    have hc : ¬c = sep := by rintro rfl; exact h (List.mem_cons_self _ _)
    have h2 : sep ∉ rest := fun hm => h (List.mem_cons_of_mem _ hm)
    simp [splitOnChar, hc, ih h2]

theorem splitOnChar_append (sep : Char) (a b : PyStr) (h : sep ∉ a) :
    splitOnChar sep (a ++ sep :: b) = a :: splitOnChar sep b := by
  induction a with
  | nil => simp [splitOnChar]
  | cons c a2 ih =>
    have hc : ¬c = sep := by rintro rfl; exact h (List.mem_cons_self _ _)
    have h2 : sep ∉ a2 := fun hm => h (List.mem_cons_of_mem _ hm)
    simp [splitOnChar, hc, ih h2]

/-- C4: captured output made of a sentinel line, two device-path lines and
a non-blank non-matching trailing line parses to exactly the two device
paths, in order. -/
theorem parse_ports_exactly_two (s p1 p2 t : PyStr)
    (hs : containsSub multiPortsSentinel s = true)
    (hsnl : '\n' ∉ s) (h1nl : '\n' ∉ p1) (h2nl : '\n' ∉ p2) (htnl : '\n' ∉ t)
    (h1 : isPreL devPre p1 = true) (h1s : pyStrip p1 = p1)
    (h1c : containsSub multiPortsSentinel p1 = false)
    (h2 : isPreL devPre p2 = true) (h2s : pyStrip p2 = p2)
    (h2c : containsSub multiPortsSentinel p2 = false)
    (ht : (pyStrip t == []) = false)
    (htdev : isPreL devPre (pyStrip t) = false)
    (htc : containsSub multiPortsSentinel t = false) :
    parse_ports (s ++ '\n' :: (p1 ++ '\n' :: (p2 ++ '\n' :: t))) = [p1, p2] := by
  have hsplit : splitOnChar '\n' (s ++ '\n' :: (p1 ++ '\n' :: (p2 ++ '\n' :: t))) =
      s :: p1 :: p2 :: [t] := by
    rw [splitOnChar_append _ _ _ hsnl, splitOnChar_append _ _ _ h1nl,
      splitOnChar_append _ _ _ h2nl, splitOnChar_no_sep _ _ htnl]
  unfold parse_ports
  rw [hsplit]
  simp [parsePortsLoop, hs, h1c, h2c, htc, h1s, h2s, h1, h2, htdev, ht]

/-- C4 witness: a concrete captured output with two ports. -/
theorem parse_ports_exactly_two_witness :
    parse_ports (pyS "ERROR: Multiple serial ports found:" ++ '\n' ::
        (pyS "/dev/ttyUSB0" ++ '\n' :: (pyS "/dev/ttyACM0" ++ '\n' ::
          pyS "use the -p option"))) =
      [pyS "/dev/ttyUSB0", pyS "/dev/ttyACM0"] := by
  exact parse_ports_exactly_two
    (pyS "ERROR: Multiple serial ports found:") (pyS "/dev/ttyUSB0")
    (pyS "/dev/ttyACM0") (pyS "use the -p option")
    (by decide) (by decide) (by decide) (by decide) (by decide)
    (by decide) (by decide) (by decide) (by decide) (by decide)
    (by decide) (by decide) (by decide) (by decide)

theorem lookupL_append_self {α : Type} (k : PyStr) (v : α)
    (l : List (PyStr × α)) (h : lookupL k l = none) :
    lookupL k (l ++ [(k, v)]) = some v := by
  induction l with
  | nil => simp [lookupL]
  | cons e rest ih =>
    obtain ⟨k2, v2⟩ := e
    by_cases hk : k2 = k
    · simp [lookupL, hk] at h
    · simp only [lookupL, if_neg hk] at h
      simp [lookupL, hk, ih h]

theorem lookupL_setFirst {α : Type} (k : PyStr) (v : α)
    (l : List (PyStr × α)) (h : lookupL k l ≠ none) :
    lookupL k (setFirst k v l) = some v := by
  induction l with
  | nil => simp [lookupL] at h
  | cons e rest ih =>
    obtain ⟨k2, v2⟩ := e
    by_cases hk : k2 = k
    · simp [setFirst, lookupL, hk]
    · simp only [lookupL, if_neg hk] at h
      simp [setFirst, lookupL, hk, ih h]

theorem setFirst_ne_nil {α : Type} (k : PyStr) (v : α)
    (l : List (PyStr × α)) (h : l ≠ []) : setFirst k v l ≠ [] := by
  match l with
  | [] => exact absurd rfl h
  | (k2, v2) :: rest =>
    unfold setFirst
    split <;> simp

/-- Mapping-level core of add_to_deploy: a path already present in the
deploy list of the normalized destination causes no write, and an add
followed by a second add of the same path on the mapping the first add
produced writes nothing.  The second part deliberately says nothing about
the configuration file in between. -/
theorem add_to_deploy_no_duplicate
    (deploy0 : Option (List (PyStr × List PyStr))) (rel dest : PyStr) (ad : Bool) :
    (rel ∈ (lookupL (normalize_dest dest) (eff_deploy deploy0 ad)).getD [] →
      add_to_deploy deploy0 rel dest ad = none) ∧
    (∀ d2, add_to_deploy deploy0 rel dest ad = some d2 →
      add_to_deploy (some d2) rel dest ad = none) := by
  constructor
  · intro hmem
    rcases hl : lookupL (normalize_dest dest) (eff_deploy deploy0 ad) with _ | srcs
    · rw [hl] at hmem
      simp at hmem
    · rw [hl] at hmem
      simp only [Option.getD_some] at hmem
      simp [add_to_deploy, hl, hmem]
  · intro d2 hadd
    have key : ∃ srcs2, lookupL (normalize_dest dest) d2 = some srcs2 ∧
        rel ∈ srcs2 ∧ d2 ≠ [] := by
      rcases hl : lookupL (normalize_dest dest) (eff_deploy deploy0 ad) with _ | srcs
      · have h2 : lookupL (normalize_dest dest)
            (eff_deploy deploy0 ad ++ [(normalize_dest dest, [])]) = some [] :=
          lookupL_append_self _ _ _ hl
        simp [add_to_deploy, hl, h2] at hadd
        refine ⟨[rel], ?_, List.mem_singleton_self _, ?_⟩
        · rw [← hadd]
          exact lookupL_setFirst _ _ _ (by rw [h2]; exact fun hx => Option.noConfusion hx)
        · rw [← hadd]
          exact setFirst_ne_nil _ _ _ (by simp)
      · by_cases hmem : rel ∈ srcs
        · simp [add_to_deploy, hl, hmem] at hadd
        · have hne : eff_deploy deploy0 ad ≠ [] := by
            intro hx
            rw [hx] at hl
            simp [lookupL] at hl
          simp [add_to_deploy, hl, hmem] at hadd
          have hlx : lookupL (normalize_dest dest) (eff_deploy deploy0 ad) ≠ none := by
            rw [hl]; exact fun hx => Option.noConfusion hx
          refine ⟨srcs ++ [rel], ?_, by simp, ?_⟩
          · rw [← hadd]
            exact lookupL_setFirst _ _ _ hlx
          · rw [← hadd]
            exact setFirst_ne_nil _ _ _ hne
    obtain ⟨srcs2, hlk, hmem2, hne⟩ := key
    simp [add_to_deploy, eff_deploy, hne, hlk, hmem2]

/-- Concrete instances of the mapping-level core: a present path is not
re-added, and a freshly added path makes the second identical add on the
resulting mapping a no-op. -/
theorem add_to_deploy_no_duplicate_witness :
    add_to_deploy (some [(pyS "/", [pyS "main.py"])]) (pyS "main.py") (pyS "/")
      false = none ∧
    add_to_deploy (some [(pyS "/", [pyS "a"])]) (pyS "a") (pyS "/") false = none := by
  refine ⟨(add_to_deploy_no_duplicate (some [(pyS "/", [pyS "main.py"])])
    (pyS "main.py") (pyS "/") false).1 (by decide),
    (add_to_deploy_no_duplicate (some [(pyS "/", [])]) (pyS "a") (pyS "/")
      false).2 [(pyS "/", [pyS "a"])] (by decide)⟩

theorem unarmed_cons_nc (c : Char) (x : PyStr) (hc : ¬c = ',') :
    unarmedAll (c :: x) = unarmedAll x := by
  simp [unarmedAll, hc]

theorem unarmed_append_nc (l x : PyStr) (h : ∀ c ∈ l, ¬c = ',') :
    unarmedAll (l ++ x) = unarmedAll x := by
  induction l with
  | nil => rfl
  | cons c l2 ih =>
    rw [List.cons_append, unarmed_cons_nc c _ (h c (List.mem_cons_self _ _))]
    exact ih fun d hd => h d (List.mem_cons_of_mem _ hd)

theorem armedF_cons_ws (c : Char) (x : PyStr) (h : isReWs c = true) :
    armedF (c :: x) = armedF x := by
  simp [armedF, h]

theorem armedF_cons_nws (c : Char) (x : PyStr) (h : isReWs c = false) :
    armedF (c :: x) = (c = ']' || c = rb) := by
  simp [armedF, h]

theorem armedF_ind (m : Nat) (x : PyStr) : armedF (ind m ++ x) = armedF x := by
  induction m with
  | zero => rfl
  | succ k ih =>
    rw [ind, List.replicate_succ, List.cons_append,
      armedF_cons_ws _ _ (by decide)]
    exact ih

theorem unarmed_ind (m : Nat) (x : PyStr) : unarmedAll (ind m ++ x) = unarmedAll x := by
  refine unarmed_append_nc _ _ fun c hc => ?_
  rw [List.eq_of_mem_replicate hc]
  decide

theorem hexDigitChar_ne_comma (n : Nat) : ¬hexDigitChar n = ',' := by
  by_cases h : n < 16
  · interval_cases n <;> decide
  · rw [hexDigitChar, List.getD_eq_default]
    · decide
    · have hl : (pyS "0123456789abcdef").length = 16 := rfl
      omega

theorem hexVal_hexDigitChar (n : Nat) (h : n < 16) :
    hexVal (hexDigitChar n) = some n := by
  interval_cases n <;> decide

theorem armedF_escape (t k : PyStr) :
    armedF (escapeStr t ++ '"' :: k) = armedSp t := by
  induction t with
  | nil => simp [escapeStr, armedF, armedSp, isReWs, rb]
  | cons c t2 ih =>
    have hesc : escapeStr (c :: t2) = escapeChar c ++ escapeStr t2 := by
      simp [escapeStr]
    rw [hesc, List.append_assoc]
    by_cases h1 : c = '"'
    · subst h1; simp [escapeChar, armedF, armedSp, isReWs, rb]
    by_cases h2 : c = '\\'
    · subst h2; simp [escapeChar, armedF, armedSp, isReWs, rb]
    by_cases h3 : c = '\n'
    · subst h3; simp [escapeChar, armedF, armedSp, isReWs, rb]
    by_cases h4 : c = '\t'
    · subst h4; simp [escapeChar, armedF, armedSp, isReWs, rb]
    by_cases h5 : c = '\r'
    · subst h5; simp [escapeChar, armedF, armedSp, isReWs, rb]
    by_cases h6 : c.toNat = 8
    · have hs : ¬c = ' ' := by
        intro hx; rw [hx] at h6; simp at h6
      have hb1 : ¬c = ']' := by
        intro hx; rw [hx] at h6; simp at h6
      have hb2 : ¬c = Char.ofNat 125 := by
        intro hx; rw [hx] at h6; simp at h6
      simp [escapeChar, h1, h2, h3, h4, h5, h6, armedF, armedSp, isReWs, rb, hs, hb1, hb2]
    by_cases h7 : c.toNat = 12
    · have hs : ¬c = ' ' := by
        intro hx; rw [hx] at h7; simp at h7
      have hb1 : ¬c = ']' := by
        intro hx; rw [hx] at h7; simp at h7
      have hb2 : ¬c = Char.ofNat 125 := by
        intro hx; rw [hx] at h7; simp at h7
      simp [escapeChar, h1, h2, h3, h4, h5, h6, h7, armedF, armedSp, isReWs, rb, hs, hb1, hb2]
    by_cases h8 : c.toNat < 32
    · have hs : ¬c = ' ' := by
        intro hx; rw [hx] at h8; simp at h8
      have hb1 : ¬c = ']' := by
        intro hx; rw [hx] at h8; simp at h8
      have hb2 : ¬c = Char.ofNat 125 := by
        intro hx; rw [hx] at h8; simp at h8
      simp [escapeChar, h1, h2, h3, h4, h5, h6, h7, h8, armedF, armedSp, isReWs, rb, hs, hb1, hb2]
    · have he : escapeChar c = [c] := by
        unfold escapeChar
        rw [if_neg h1, if_neg h2, if_neg h3, if_neg h4, if_neg h5, if_neg h6,
          if_neg h7, if_neg h8]
      by_cases hs : c = ' '
      · subst hs
        rw [he, List.singleton_append, armedF_cons_ws _ _ (by decide), ih]
        simp [armedSp]
      · have hws : isReWs c = false := by
          simp only [isReWs, Bool.or_eq_false_iff, decide_eq_false_iff_not]
          exact ⟨⟨⟨⟨⟨hs, h4⟩, h3⟩, h5⟩, fun hx => h8 (by omega)⟩,
            fun hx => h8 (by omega)⟩
        rw [he, List.singleton_append, armedF_cons_nws _ _ hws]
        simp [armedSp, hs]

theorem escapeChar_nc (c : Char) (hc : ¬c = ',') :
    ∀ x ∈ escapeChar c, ¬x = ',' := by
  intro x hx
  rintro rfl
  unfold escapeChar at hx
  repeat' split at hx
  all_goals simp at hx
  · rcases hx with hx | hx
    · exact hexDigitChar_ne_comma _ hx.symm
    · exact hexDigitChar_ne_comma _ hx.symm
  · exact hc hx.symm

theorem unarmed_escape (s k : PyStr) (hcbf : cbfStr s = true)
    (hk : unarmedAll k = true) : unarmedAll (escapeStr s ++ '"' :: k) = true := by
  induction s with
  | nil =>
    rw [show escapeStr [] = [] from rfl, List.nil_append,
      unarmed_cons_nc _ _ (by decide)]
    exact hk
  | cons c s2 ih =>
    have hesc : escapeStr (c :: s2) = escapeChar c ++ escapeStr s2 := by
      simp [escapeStr]
    rw [hesc, List.append_assoc]
    by_cases hc : c = ','
    · subst hc
      rw [show escapeChar ',' = [','] from rfl, List.singleton_append]
      have hx : armedSp s2 = false ∧ cbfStr s2 = true := by
        have h0 := hcbf
        simp [cbfStr] at h0
        exact h0
      have h1 : armedF (escapeStr s2 ++ '"' :: k) = false := by
        rw [armedF_escape]; exact hx.1
      have h2 : unarmedAll (escapeStr s2 ++ '"' :: k) = true := ih hx.2
      simp [unarmedAll, h1, h2]
    · have hcb2 : cbfStr s2 = true := by
        have hx := hcbf
        simp only [cbfStr, Bool.and_eq_true] at hx
        exact hx.2
      rw [unarmed_append_nc _ _ (escapeChar_nc c hc)]
      exact ih hcb2

theorem armedF_serStr (s y : PyStr) : armedF (serStr s ++ y) = false := by
  rw [serStr, List.cons_append, armedF_cons_nws _ _ (by decide)]
  decide

theorem serArrItems_shape (ss : List PyStr) (q : Nat) (h : ss ≠ []) :
    ∃ t, serArrItems ss q = '"' :: t := by
  match ss with
  | [] => exact absurd rfl h
  | [s] => exact ⟨escapeStr s ++ ['"'], rfl⟩
  | s :: s2 :: r =>
    refine ⟨(escapeStr s ++ ['"']) ++ ',' :: '\n' :: (ind q ++ serArrItems (s2 :: r) q), ?_⟩
    rw [show serArrItems (s :: s2 :: r) q = serStr s ++ ',' :: '\n' ::
      (ind q ++ serArrItems (s2 :: r) q) from rfl, serStr, List.cons_append]

theorem armedF_serArrItems (ss : List PyStr) (q : Nat) (y : PyStr) (h : ss ≠ []) :
    armedF (serArrItems ss q ++ y) = false := by
  obtain ⟨t, ht⟩ := serArrItems_shape ss q h
  rw [ht, List.cons_append, armedF_cons_nws _ _ (by decide)]
  decide

theorem armedF_serArr (ss : List PyStr) (n : Nat) (y : PyStr) :
    armedF (serArr ss n ++ y) = false := by
  cases ss with
  | nil =>
    rw [show serArr [] n = ['[', ']'] from rfl, List.cons_append,
      armedF_cons_nws _ _ (by decide)]
    decide
  | cons s r =>
    rw [show serArr (s :: r) n = '[' :: '\n' :: (ind (n + 4) ++
      serArrItems (s :: r) (n + 4) ++ '\n' :: (ind n ++ [']'])) from rfl,
      List.cons_append, armedF_cons_nws _ _ (by decide)]
    decide

theorem serObjItems_shape (fs : List (PyStr × List PyStr)) (q : Nat) (h : fs ≠ []) :
    ∃ t, serObjItems fs q = '"' :: t := by
  match fs with
  | [] => exact absurd rfl h
  | [(k, v)] =>
    refine ⟨(escapeStr k ++ ['"']) ++ ':' :: ' ' :: serArr v q, ?_⟩
    rw [show serObjItems [(k, v)] q = serStr k ++ ':' :: ' ' :: serArr v q from rfl,
      serStr, List.cons_append]
  | (k, v) :: e2 :: r =>
    refine ⟨(escapeStr k ++ ['"']) ++ ':' :: ' ' :: serArr v q ++ ',' :: '\n' ::
      (ind q ++ serObjItems (e2 :: r) q), ?_⟩
    rw [show serObjItems ((k, v) :: e2 :: r) q = serStr k ++ ':' :: ' ' ::
      serArr v q ++ ',' :: '\n' :: (ind q ++ serObjItems (e2 :: r) q) from rfl,
      serStr]
    simp [List.cons_append, List.append_assoc]

theorem armedF_serObjItems (fs : List (PyStr × List PyStr)) (q : Nat) (y : PyStr)
    (h : fs ≠ []) : armedF (serObjItems fs q ++ y) = false := by
  obtain ⟨t, ht⟩ := serObjItems_shape fs q h
  rw [ht, List.cons_append, armedF_cons_nws _ _ (by decide)]
  decide

theorem armedF_serObjAS (fs : List (PyStr × List PyStr)) (n : Nat) (y : PyStr) :
    armedF (serObjAS fs n ++ y) = false := by
  cases fs with
  | nil =>
    rw [show serObjAS [] n = [lb, rb] from rfl, List.cons_append,
      armedF_cons_nws _ _ (by decide)]
    decide
  | cons e r =>
    rw [show serObjAS (e :: r) n = lb :: '\n' :: (ind (n + 4) ++
      serObjItems (e :: r) (n + 4) ++ '\n' :: (ind n ++ [rb])) from rfl,
      List.cons_append, armedF_cons_nws _ _ (by decide)]
    decide

theorem armedF_serConfigVal (v : ConfigVal) (n : Nat) (y : PyStr) :
    armedF (serConfigVal v n ++ y) = false := by
  cases v with
  | vStr s =>
    rw [show serConfigVal (.vStr s) n = serStr s from rfl]
    exact armedF_serStr s y
  | vArr ss =>
    rw [show serConfigVal (.vArr ss) n = serArr ss n from rfl]
    exact armedF_serArr ss n y
  | vObj fs =>
    rw [show serConfigVal (.vObj fs) n = serObjAS fs n from rfl]
    exact armedF_serObjAS fs n y

theorem serTopItems_shape (fs : ConfigObj) (q : Nat) (h : fs ≠ []) :
    ∃ t, serTopItems fs q = '"' :: t := by
  match fs with
  | [] => exact absurd rfl h
  | [(k, v)] =>
    refine ⟨(escapeStr k ++ ['"']) ++ ':' :: ' ' :: serConfigVal v q, ?_⟩
    rw [show serTopItems [(k, v)] q = serStr k ++ ':' :: ' ' :: serConfigVal v q from rfl,
      serStr, List.cons_append]
  | (k, v) :: e2 :: r =>
    refine ⟨(escapeStr k ++ ['"']) ++ ':' :: ' ' :: serConfigVal v q ++ ',' :: '\n' ::
      (ind q ++ serTopItems (e2 :: r) q), ?_⟩
    rw [show serTopItems ((k, v) :: e2 :: r) q = serStr k ++ ':' :: ' ' ::
      serConfigVal v q ++ ',' :: '\n' :: (ind q ++ serTopItems (e2 :: r) q) from rfl,
      serStr]
    simp [List.cons_append, List.append_assoc]

theorem armedF_serTopItems (fs : ConfigObj) (q : Nat) (y : PyStr) (h : fs ≠ []) :
    armedF (serTopItems fs q ++ y) = false := by
  obtain ⟨t, ht⟩ := serTopItems_shape fs q h
  rw [ht, List.cons_append, armedF_cons_nws _ _ (by decide)]
  decide

theorem unarmed_serStr (s tail : PyStr) (hcbf : cbfStr s = true)
    (ht : unarmedAll tail = true) : unarmedAll (serStr s ++ tail) = true := by
  rw [serStr, List.cons_append, unarmed_cons_nc _ _ (by decide),
    List.append_assoc, List.singleton_append]
  exact unarmed_escape s tail hcbf ht

theorem unarmed_serArrItems (ss : List PyStr) (q : Nat) (tail : PyStr)
    (hcbf : ∀ s ∈ ss, cbfStr s = true) (ht : unarmedAll tail = true) :
    unarmedAll (serArrItems ss q ++ tail) = true := by
  induction ss with
  | nil => simpa [serArrItems] using ht
  | cons s r ih =>
    cases r with
    | nil =>
      rw [show serArrItems [s] q = serStr s from rfl]
      exact unarmed_serStr s tail (hcbf s (List.mem_cons_self _ _)) ht
    | cons s2 r2 =>
      rw [show serArrItems (s :: s2 :: r2) q = serStr s ++ ',' :: '\n' ::
        (ind q ++ serArrItems (s2 :: r2) q) from rfl]
      simp only [List.append_assoc, List.cons_append]
      refine unarmed_serStr s _ (hcbf s (List.mem_cons_self _ _)) ?_
      have h1 : armedF (ind q ++ (serArrItems (s2 :: r2) q ++ tail)) = false := by
        rw [armedF_ind]
        exact armedF_serArrItems _ _ _ (by simp)
      have h2 : unarmedAll (ind q ++ (serArrItems (s2 :: r2) q ++ tail)) = true := by
        rw [unarmed_ind]
        exact ih fun x hx2 => hcbf x (List.mem_cons_of_mem _ hx2)
      simp [unarmedAll, armedF, isReWs, h1, h2]

theorem unarmed_serArr (ss : List PyStr) (n : Nat) (tail : PyStr)
    (hcbf : ∀ s ∈ ss, cbfStr s = true) (ht : unarmedAll tail = true) :
    unarmedAll (serArr ss n ++ tail) = true := by
  cases ss with
  | nil =>
    rw [show serArr [] n = ['[', ']'] from rfl, List.cons_append,
      unarmed_cons_nc _ _ (by decide), List.cons_append,
      unarmed_cons_nc _ _ (by decide), List.nil_append]
    exact ht
  | cons s r =>
    rw [show serArr (s :: r) n = '[' :: '\n' :: (ind (n + 4) ++
      serArrItems (s :: r) (n + 4) ++ '\n' :: (ind n ++ [']'])) from rfl]
    simp only [List.append_assoc, List.cons_append]
    rw [unarmed_cons_nc _ _ (by decide), unarmed_cons_nc _ _ (by decide),
      unarmed_ind]
    refine unarmed_serArrItems _ _ _ hcbf ?_
    rw [unarmed_cons_nc _ _ (by decide), unarmed_ind,
      unarmed_cons_nc _ _ (by decide), List.nil_append]
    exact ht

theorem unarmed_serObjItems (fs : List (PyStr × List PyStr)) (q : Nat) (tail : PyStr)
    (hcbf : ∀ e ∈ fs, cbfStr e.1 = true ∧ ∀ s ∈ e.2, cbfStr s = true)
    (ht : unarmedAll tail = true) :
    unarmedAll (serObjItems fs q ++ tail) = true := by
  induction fs with
  | nil => simpa [serObjItems] using ht
  | cons e r ih =>
    obtain ⟨k, v⟩ := e
    cases r with
    | nil =>
      rw [show serObjItems [(k, v)] q = serStr k ++ ':' :: ' ' :: serArr v q from rfl]
      simp only [List.append_assoc, List.cons_append]
      refine unarmed_serStr k _ (hcbf (k, v) (List.mem_cons_self _ _)).1 ?_
      rw [unarmed_cons_nc _ _ (by decide), unarmed_cons_nc _ _ (by decide)]
      exact unarmed_serArr v q tail (hcbf (k, v) (List.mem_cons_self _ _)).2 ht
    | cons e2 r2 =>
      rw [show serObjItems ((k, v) :: e2 :: r2) q = serStr k ++ ':' :: ' ' ::
        serArr v q ++ ',' :: '\n' :: (ind q ++ serObjItems (e2 :: r2) q) from rfl]
      simp only [List.append_assoc, List.cons_append]
      refine unarmed_serStr k _ (hcbf (k, v) (List.mem_cons_self _ _)).1 ?_
      rw [unarmed_cons_nc _ _ (by decide), unarmed_cons_nc _ _ (by decide)]
      refine unarmed_serArr v q _ (hcbf (k, v) (List.mem_cons_self _ _)).2 ?_
      have h1 : armedF (ind q ++ (serObjItems (e2 :: r2) q ++ tail)) = false := by
        rw [armedF_ind]
        exact armedF_serObjItems _ _ _ (by simp)
      have h2 : unarmedAll (ind q ++ (serObjItems (e2 :: r2) q ++ tail)) = true := by
        rw [unarmed_ind]
        exact ih fun x hx2 => hcbf x (List.mem_cons_of_mem _ hx2)
      simp [unarmedAll, armedF, isReWs, h1, h2]

theorem unarmed_serObjAS (fs : List (PyStr × List PyStr)) (n : Nat) (tail : PyStr)
    (hcbf : ∀ e ∈ fs, cbfStr e.1 = true ∧ ∀ s ∈ e.2, cbfStr s = true)
    (ht : unarmedAll tail = true) :
    unarmedAll (serObjAS fs n ++ tail) = true := by
  cases fs with
  | nil =>
    rw [show serObjAS [] n = [lb, rb] from rfl, List.cons_append,
      unarmed_cons_nc _ _ (by decide), List.cons_append,
      unarmed_cons_nc _ _ (by decide), List.nil_append]
    exact ht
  | cons e r =>
    rw [show serObjAS (e :: r) n = lb :: '\n' :: (ind (n + 4) ++
      serObjItems (e :: r) (n + 4) ++ '\n' :: (ind n ++ [rb])) from rfl]
    simp only [List.append_assoc, List.cons_append]
    rw [unarmed_cons_nc _ _ (by decide), unarmed_cons_nc _ _ (by decide),
      unarmed_ind]
    refine unarmed_serObjItems _ _ _ hcbf ?_
    rw [unarmed_cons_nc _ _ (by decide), unarmed_ind,
      unarmed_cons_nc _ _ (by decide), List.nil_append]
    exact ht

theorem unarmed_serConfigVal (v : ConfigVal) (n : Nat) (tail : PyStr)
    (hcbf : cbfVal v = true) (ht : unarmedAll tail = true) :
    unarmedAll (serConfigVal v n ++ tail) = true := by
  cases v with
  | vStr s =>
    rw [show serConfigVal (.vStr s) n = serStr s from rfl]
    exact unarmed_serStr s tail hcbf ht
  | vArr ss =>
    rw [show serConfigVal (.vArr ss) n = serArr ss n from rfl]
    refine unarmed_serArr ss n tail ?_ ht
    intro s hs
    simp only [cbfVal, List.all_eq_true] at hcbf
    exact hcbf s hs
  | vObj fs =>
    rw [show serConfigVal (.vObj fs) n = serObjAS fs n from rfl]
    refine unarmed_serObjAS fs n tail ?_ ht
    intro e he
    simp only [cbfVal, List.all_eq_true, Bool.and_eq_true] at hcbf
    exact (hcbf e he).imp id fun h2 => h2

theorem unarmed_serTopItems (fs : ConfigObj) (q : Nat) (tail : PyStr)
    (hcbf : ∀ e ∈ fs, cbfStr e.1 = true ∧ cbfVal e.2 = true)
    (ht : unarmedAll tail = true) :
    unarmedAll (serTopItems fs q ++ tail) = true := by
  induction fs with
  | nil => simpa [serTopItems] using ht
  | cons e r ih =>
    obtain ⟨k, v⟩ := e
    cases r with
    | nil =>
      rw [show serTopItems [(k, v)] q = serStr k ++ ':' :: ' ' ::
        serConfigVal v q from rfl]
      simp only [List.append_assoc, List.cons_append]
      refine unarmed_serStr k _ (hcbf (k, v) (List.mem_cons_self _ _)).1 ?_
      rw [unarmed_cons_nc _ _ (by decide), unarmed_cons_nc _ _ (by decide)]
      exact unarmed_serConfigVal v q tail (hcbf (k, v) (List.mem_cons_self _ _)).2 ht
    | cons e2 r2 =>
      rw [show serTopItems ((k, v) :: e2 :: r2) q = serStr k ++ ':' :: ' ' ::
        serConfigVal v q ++ ',' :: '\n' :: (ind q ++ serTopItems (e2 :: r2) q) from rfl]
      simp only [List.append_assoc, List.cons_append]
      refine unarmed_serStr k _ (hcbf (k, v) (List.mem_cons_self _ _)).1 ?_
      rw [unarmed_cons_nc _ _ (by decide), unarmed_cons_nc _ _ (by decide)]
      refine unarmed_serConfigVal v q _ (hcbf (k, v) (List.mem_cons_self _ _)).2 ?_
      have h1 : armedF (ind q ++ (serTopItems (e2 :: r2) q ++ tail)) = false := by
        rw [armedF_ind]
        exact armedF_serTopItems _ _ _ (by simp)
      have h2 : unarmedAll (ind q ++ (serTopItems (e2 :: r2) q ++ tail)) = true := by
        rw [unarmed_ind]
        exact ih fun x hx2 => hcbf x (List.mem_cons_of_mem _ hx2)
      simp [unarmedAll, armedF, isReWs, h1, h2]

theorem unarmed_serConfig (c : ConfigObj) (hcbf : cbfObj c = true) :
    unarmedAll (serConfig c) = true := by
  cases c with
  | nil => decide
  | cons e r =>
    rw [show serConfig (e :: r) = lb :: '\n' :: (ind 4 ++ serTopItems (e :: r) 4 ++
      '\n' :: [rb]) from rfl]
    simp only [List.append_assoc, List.cons_append]
    rw [unarmed_cons_nc _ _ (by decide), unarmed_cons_nc _ _ (by decide),
      unarmed_ind]
    refine unarmed_serTopItems _ _ _ ?_ ?_
    · intro e2 he2
      simp only [cbfObj, List.all_eq_true, Bool.and_eq_true] at hcbf
      exact hcbf e2 he2
    · rw [unarmed_cons_nc _ _ (by decide)]
      decide

theorem stripTCF_id (fuel : Nat) (s : PyStr) (h : unarmedAll s = true)
    (hlen : s.length < fuel) : stripTCF fuel s = s := by
  induction fuel generalizing s with
  | zero => omega
  | succ f ih =>
    cases s with
    | nil => rfl
    | cons c rest =>
      have hr : unarmedAll rest = true := by
        simp only [unarmedAll, Bool.and_eq_true] at h
        exact h.2
      have hlen2 : rest.length < f := by
        simp only [List.length_cons] at hlen
        omega
      by_cases hc : c = ','
      · subst hc
        have ha : armedF rest = false := by
          have h0 := h
          simp [unarmedAll] at h0
          exact h0.1
        simp only [stripTCF, ha, Bool.and_false, Bool.false_eq_true, if_false]
        rw [ih rest hr hlen2]
      · have hcc : ((c = ',' : Bool) && armedF rest) = false := by simp [hc]
        simp only [stripTCF, hcc, Bool.false_eq_true, if_false]
        rw [ih rest hr hlen2]

theorem stripTC_id (s : PyStr) (h : unarmedAll s = true) : stripTC s = s :=
  stripTCF_id _ _ h (by omega)

theorem parseStringChars_escape (s rest : PyStr) :
    parseStringChars (escapeStr s ++ '"' :: rest) = some (s, rest) := by
  induction s with
  | nil =>
    rw [show escapeStr [] = [] from rfl, List.nil_append,
      parseStringChars.eq_def]
    simp
  | cons c s2 ih =>
    have hesc : escapeStr (c :: s2) = escapeChar c ++ escapeStr s2 := by
      simp [escapeStr]
    rw [hesc, List.append_assoc]
    by_cases h1 : c = '"'
    · subst h1
      rw [show escapeChar '"' = ['\\', '"'] from rfl]
      simp [parseStringChars, escDecode, ih]
    by_cases h2 : c = '\\'
    · subst h2
      rw [show escapeChar '\\' = ['\\', '\\'] from rfl]
      simp [parseStringChars, escDecode, ih]
    by_cases h3 : c = '\n'
    · subst h3
      rw [show escapeChar '\n' = ['\\', 'n'] from rfl]
      simp [parseStringChars, escDecode, ih]
    by_cases h4 : c = '\t'
    · subst h4
      rw [show escapeChar '\t' = ['\\', 't'] from rfl]
      simp [parseStringChars, escDecode, ih]
    by_cases h5 : c = '\r'
    · subst h5
      rw [show escapeChar '\r' = ['\\', 'r'] from rfl]
      simp [parseStringChars, escDecode, ih]
    by_cases h6 : c.toNat = 8
    · have hc8 : c = Char.ofNat 8 := by rw [← h6, Char.ofNat_toNat]
      subst hc8
      rw [show escapeChar (Char.ofNat 8) = ['\\', 'b'] from rfl]
      simp [parseStringChars, escDecode, ih]
    by_cases h7 : c.toNat = 12
    · have hc12 : c = Char.ofNat 12 := by rw [← h7, Char.ofNat_toNat]
      subst hc12
      rw [show escapeChar (Char.ofNat 12) = ['\\', 'f'] from rfl]
      simp [parseStringChars, escDecode, ih]
    by_cases h8 : c.toNat < 32
    · rw [show escapeChar c = ['\\', 'u', '0', '0', hexDigitChar (c.toNat / 16),
        hexDigitChar (c.toNat % 16)] from by
          unfold escapeChar
          rw [if_neg h1, if_neg h2, if_neg h3, if_neg h4, if_neg h5, if_neg h6,
            if_neg h7, if_pos h8]]
      have hd1 : c.toNat / 16 < 16 := by omega
      have hd2 : c.toNat % 16 < 16 := by omega
      have harith : ((0 * 16 + 0) * 16 + c.toNat / 16) * 16 + c.toNat % 16 =
          c.toNat := by omega
      simp only [List.cons_append, List.nil_append]
      simp [parseStringChars, hexVal_hexDigitChar _ hd1, hexVal_hexDigitChar _ hd2,
        show hexVal '0' = some 0 from rfl, harith, Char.ofNat_toNat, ih]
      rw [show c.toNat / 16 * 16 + c.toNat % 16 = c.toNat from by omega,
        Char.ofNat_toNat]
    · rw [show escapeChar c = [c] from by
        unfold escapeChar
        rw [if_neg h1, if_neg h2, if_neg h3, if_neg h4, if_neg h5, if_neg h6,
          if_neg h7, if_neg h8]]
      simp only [List.cons_append, List.nil_append]
      rw [parseStringChars.eq_def]
      simp [h1, h2, h8, ih]

theorem skipWs_append_ws (w x : PyStr) (h : w.all isJsonWs = true) :
    skipWs (w ++ x) = skipWs x := by
  induction w with
  | nil => rfl
  | cons c w2 ih =>
    simp only [List.all_cons, Bool.and_eq_true] at h
    rw [List.cons_append, skipWs, List.dropWhile_cons, if_pos h.1]
    exact ih h.2

theorem skipWs_cons_nws (c : Char) (x : PyStr) (h : isJsonWs c = false) :
    skipWs (c :: x) = c :: x := by
  rw [skipWs, List.dropWhile_cons, if_neg (by simp [h])]

theorem skipWs_cons_ws (c : Char) (x : PyStr) (h : isJsonWs c = true) :
    skipWs (c :: x) = skipWs x := by
  rw [skipWs, List.dropWhile_cons, if_pos (by simp [h])]
  rfl

theorem skipWs_ind (m : Nat) (x : PyStr) : skipWs (ind m ++ x) = skipWs x := by
  refine skipWs_append_ws _ _ ?_
  simp only [ind, List.all_eq_true]
  intro c hc
  rw [List.eq_of_mem_replicate hc]
  decide

theorem all_ws_nl_ind (q : Nat) : (('\n' :: ind q : PyStr)).all isJsonWs = true := by
  simp only [List.all_cons, Bool.and_eq_true]
  refine ⟨by decide, ?_⟩
  simp only [ind, List.all_eq_true]
  intro c hc
  rw [List.eq_of_mem_replicate hc]
  decide

theorem parseF_val_serStr (s w rest : PyStr) (fuel : Nat)
    (hw : w.all isJsonWs = true) (hf : 1 ≤ fuel) :
    parseF fuel PMode.val (w ++ (serStr s ++ rest)) = some (Json.str s, rest) := by
  obtain ⟨f, rfl⟩ : ∃ f, fuel = f + 1 := ⟨fuel - 1, by omega⟩
  have hskip : skipWs (w ++ (serStr s ++ rest)) =
      '"' :: (escapeStr s ++ ('"' :: rest)) := by
    rw [skipWs_append_ws _ _ hw, serStr, List.cons_append,
      skipWs_cons_nws _ _ (by decide)]
    simp [List.append_assoc]
  rw [parseF.eq_def]
  simp only [hskip]
  simp [parseStringChars_escape]

theorem parseF_items_serArrItems (ss : List PyStr) (q m : Nat) (w rest : PyStr)
    (fuel : Nat) (hne : ss ≠ []) (hw : w.all isJsonWs = true)
    (hf : ss.length + 1 ≤ fuel) :
    parseF fuel PMode.items
        (w ++ (serArrItems ss q ++ ('\n' :: (ind m ++ (']' :: rest))))) =
      some (Json.arr (ss.map Json.str), rest) := by
  induction ss generalizing w fuel with
  | nil => exact absurd rfl hne
  | cons s r ih =>
    obtain ⟨f, rfl⟩ : ∃ f, fuel = f + 1 := ⟨fuel - 1, by omega⟩
    have hf1 : 1 ≤ f := by
      simp only [List.length_cons] at hf
      omega
    cases r with
    | nil =>
      rw [show serArrItems [s] q = serStr s from rfl]
      rw [parseF.eq_def]
      simp only [parseF_val_serStr s w _ f hw hf1]
      rw [skipWs_cons_ws _ _ (by decide), skipWs_ind,
        skipWs_cons_nws _ _ (by decide)]
      simp
    | cons s2 r2 =>
      rw [show serArrItems (s :: s2 :: r2) q = serStr s ++ ',' :: '\n' ::
        (ind q ++ serArrItems (s2 :: r2) q) from rfl]
      simp only [List.append_assoc, List.cons_append]
      rw [parseF.eq_def]
      simp only [parseF_val_serStr s w _ f hw hf1]
      rw [skipWs_cons_nws _ _ (by decide)]
      have hrec := ih ('\n' :: ind q) f (by simp) (all_ws_nl_ind q)
        (by simp only [List.length_cons] at hf ⊢; omega)
      simp only [List.cons_append, List.append_assoc] at hrec
      simp [hrec]

theorem parseF_val_serArr (ss : List PyStr) (n : Nat) (w rest : PyStr) (fuel : Nat)
    (hw : w.all isJsonWs = true) (hf : ss.length + 2 ≤ fuel) :
    parseF fuel PMode.val (w ++ (serArr ss n ++ rest)) =
      some (Json.arr (ss.map Json.str), rest) := by
  obtain ⟨f, rfl⟩ : ∃ f, fuel = f + 1 := ⟨fuel - 1, by omega⟩
  cases ss with
  | nil =>
    have hskip : skipWs (w ++ (serArr [] n ++ rest)) = '[' :: (']' :: rest) := by
      rw [show serArr [] n = ['[', ']'] from rfl, skipWs_append_ws _ _ hw,
        List.cons_append, skipWs_cons_nws _ _ (by decide), List.cons_append,
        List.nil_append]
    have h2 : skipWs (']' :: rest) = ']' :: rest := skipWs_cons_nws _ _ (by decide)
    rw [parseF.eq_def]
    simp only [hskip, h2]
    simp [lb]
  | cons s r =>
    have hser : serArr (s :: r) n ++ rest = '[' :: ('\n' :: (ind (n + 4) ++
        (serArrItems (s :: r) (n + 4) ++ ('\n' :: (ind n ++ (']' :: rest)))))) := by
      rw [show serArr (s :: r) n = '[' :: '\n' :: (ind (n + 4) ++
        serArrItems (s :: r) (n + 4) ++ '\n' :: (ind n ++ [']'])) from rfl]
      simp [List.append_assoc, List.cons_append]
    have hskip : skipWs (w ++ (serArr (s :: r) n ++ rest)) = '[' :: ('\n' ::
        (ind (n + 4) ++ (serArrItems (s :: r) (n + 4) ++
          ('\n' :: (ind n ++ (']' :: rest)))))) := by
      rw [skipWs_append_ws _ _ hw, hser, skipWs_cons_nws _ _ (by decide)]
    obtain ⟨t, ht⟩ := serArrItems_shape (s :: r) (n + 4) (by simp)
    have hsk2 : skipWs ('\n' :: (ind (n + 4) ++ (serArrItems (s :: r) (n + 4) ++
        ('\n' :: (ind n ++ (']' :: rest)))))) = '"' :: (t ++
          ('\n' :: (ind n ++ (']' :: rest)))) := by
      rw [skipWs_cons_ws _ _ (by decide), skipWs_ind, ht, List.cons_append,
        skipWs_cons_nws _ _ (by decide)]
    have hitems := parseF_items_serArrItems (s :: r) (n + 4) n
      ('\n' :: ind (n + 4)) rest f (by simp) (all_ws_nl_ind (n + 4))
      (by simp only [List.length_cons] at hf ⊢; omega)
    simp only [List.cons_append, List.append_assoc] at hitems
    rw [parseF.eq_def]
    simp only [hskip, hsk2]
    simp [lb, hitems]

theorem parseF_members_serObjItems (fs : List (PyStr × List PyStr)) (q m : Nat)
    (w rest : PyStr) (fuel : Nat) (hne : fs ≠ []) (hw : w.all isJsonWs = true)
    (hf : costMA fs ≤ fuel) :
    parseF fuel PMode.members
        (w ++ (serObjItems fs q ++ ('\n' :: (ind m ++ (rb :: rest))))) =
      some (Json.obj (fs.map fun e => (e.1, Json.arr (e.2.map Json.str))), rest) := by
  induction fs generalizing w fuel with
  | nil => exact absurd rfl hne
  | cons e r ih =>
    obtain ⟨k, v⟩ := e
    have hc : v.length + 3 + costMA r = costMA (( k, v) :: r) := by
      simp [costMA]
    obtain ⟨f, rfl⟩ : ∃ f, fuel = f + 1 := ⟨fuel - 1, by omega⟩
    have hfv : v.length + 2 ≤ f := by omega
    cases r with
    | nil =>
      rw [show serObjItems [(k, v)] q = serStr k ++ ':' :: ' ' :: serArr v q from rfl]
      simp only [List.append_assoc, List.cons_append]
      have hskip : skipWs (w ++ (serStr k ++ (':' :: ' ' :: (serArr v q ++
          ('\n' :: (ind m ++ (rb :: rest))))))) = '"' :: (escapeStr k ++
            ('"' :: (':' :: ' ' :: (serArr v q ++
              ('\n' :: (ind m ++ (rb :: rest))))))) := by
        rw [skipWs_append_ws _ _ hw, serStr, List.cons_append,
          skipWs_cons_nws _ _ (by decide)]
        simp [List.append_assoc]
      have hval := parseF_val_serArr v q [' '] ('\n' :: (ind m ++ (rb :: rest))) f
        (by decide) hfv
      simp only [List.cons_append, List.nil_append] at hval
      have hsk3 : skipWs ('\n' :: (ind m ++ (rb :: rest))) = rb :: rest := by
        rw [skipWs_cons_ws _ _ (by decide), skipWs_ind,
          skipWs_cons_nws _ _ (by decide)]
      rw [parseF.eq_def]
      simp only [hskip]
      have hc1 : skipWs (':' :: ' ' :: (serArr v q ++ ('\n' :: (ind m ++ (rb :: rest))))) =
          ':' :: ' ' :: (serArr v q ++ ('\n' :: (ind m ++ (rb :: rest)))) :=
        skipWs_cons_nws _ _ (by decide)
      simp only [parseStringChars_escape, hc1, hval, hsk3]
      simp [rb]
    | cons e2 r2 =>
      rw [show serObjItems ((k, v) :: e2 :: r2) q = serStr k ++ ':' :: ' ' ::
        serArr v q ++ ',' :: '\n' :: (ind q ++ serObjItems (e2 :: r2) q) from rfl]
      simp only [List.append_assoc, List.cons_append]
      have hskip : skipWs (w ++ (serStr k ++ (':' :: ' ' :: (serArr v q ++
          (',' :: '\n' :: (ind q ++ (serObjItems (e2 :: r2) q ++
            ('\n' :: (ind m ++ (rb :: rest)))))))))) = '"' :: (escapeStr k ++
            ('"' :: (':' :: ' ' :: (serArr v q ++
              (',' :: '\n' :: (ind q ++ (serObjItems (e2 :: r2) q ++
                ('\n' :: (ind m ++ (rb :: rest)))))))))) := by
        rw [skipWs_append_ws _ _ hw, serStr, List.cons_append,
          skipWs_cons_nws _ _ (by decide)]
        simp [List.append_assoc]
      have hval := parseF_val_serArr v q [' ']
        (',' :: '\n' :: (ind q ++ (serObjItems (e2 :: r2) q ++
          ('\n' :: (ind m ++ (rb :: rest)))))) f (by decide) hfv
      simp only [List.cons_append, List.nil_append] at hval
      have hrec := ih ('\n' :: ind q) f (by simp) (all_ws_nl_ind q)
        (by rw [← hc] at hf; omega)
      simp only [List.cons_append, List.append_assoc] at hrec
      rw [parseF.eq_def]
      simp only [hskip]
      simp [parseStringChars_escape, skipWs_cons_nws _ _ (show isJsonWs ':' = false
        from by decide), hval, skipWs_cons_nws _ _ (show isJsonWs ',' = false
        from by decide), hrec]

theorem parseF_val_serObjAS (fs : List (PyStr × List PyStr)) (n : Nat)
    (w rest : PyStr) (fuel : Nat) (hw : w.all isJsonWs = true)
    (hf : costMA fs + 1 ≤ fuel) :
    parseF fuel PMode.val (w ++ (serObjAS fs n ++ rest)) =
      some (Json.obj (fs.map fun e => (e.1, Json.arr (e.2.map Json.str))), rest) := by
  obtain ⟨f, rfl⟩ : ∃ f, fuel = f + 1 := ⟨fuel - 1, by omega⟩
  cases fs with
  | nil =>
    have hskip : skipWs (w ++ (serObjAS [] n ++ rest)) = lb :: (rb :: rest) := by
      rw [show serObjAS [] n = [lb, rb] from rfl, skipWs_append_ws _ _ hw,
        List.cons_append, skipWs_cons_nws _ _ (by decide), List.cons_append,
        List.nil_append]
    have h2 : skipWs (rb :: rest) = rb :: rest := skipWs_cons_nws _ _ (by decide)
    rw [parseF.eq_def]
    simp only [hskip, h2]
    simp [show ¬lb = '"' from by decide]
  | cons e r =>
    have hser : serObjAS (e :: r) n ++ rest = lb :: ('\n' :: (ind (n + 4) ++
        (serObjItems (e :: r) (n + 4) ++ ('\n' :: (ind n ++ (rb :: rest)))))) := by
      rw [show serObjAS (e :: r) n = lb :: '\n' :: (ind (n + 4) ++
        serObjItems (e :: r) (n + 4) ++ '\n' :: (ind n ++ [rb])) from rfl]
      simp [List.append_assoc, List.cons_append]
    have hskip : skipWs (w ++ (serObjAS (e :: r) n ++ rest)) = lb :: ('\n' ::
        (ind (n + 4) ++ (serObjItems (e :: r) (n + 4) ++
          ('\n' :: (ind n ++ (rb :: rest)))))) := by
      rw [skipWs_append_ws _ _ hw, hser, skipWs_cons_nws _ _ (by decide)]
    obtain ⟨t, ht⟩ := serObjItems_shape (e :: r) (n + 4) (by simp)
    have hsk2 : skipWs ('\n' :: (ind (n + 4) ++ (serObjItems (e :: r) (n + 4) ++
        ('\n' :: (ind n ++ (rb :: rest)))))) = '"' :: (t ++
          ('\n' :: (ind n ++ (rb :: rest)))) := by
      rw [skipWs_cons_ws _ _ (by decide), skipWs_ind, ht, List.cons_append,
        skipWs_cons_nws _ _ (by decide)]
    have hmem := parseF_members_serObjItems (e :: r) (n + 4) n
      ('\n' :: ind (n + 4)) rest f (by simp) (all_ws_nl_ind (n + 4)) (by omega)
    simp only [List.cons_append, List.append_assoc] at hmem
    rw [parseF.eq_def]
    simp only [hskip, hsk2]
    simp [show ¬lb = '"' from by decide, show ¬('"' : Char) = rb from by decide, hmem]

theorem parseF_val_serConfigVal (v : ConfigVal) (n : Nat) (w rest : PyStr)
    (fuel : Nat) (hw : w.all isJsonWs = true) (hf : valCostTop v ≤ fuel) :
    parseF fuel PMode.val (w ++ (serConfigVal v n ++ rest)) =
      some (configValJson v, rest) := by
  cases v with
  | vStr s =>
    rw [show serConfigVal (.vStr s) n = serStr s from rfl]
    exact parseF_val_serStr s w rest fuel hw hf
  | vArr ss =>
    rw [show serConfigVal (.vArr ss) n = serArr ss n from rfl]
    exact parseF_val_serArr ss n w rest fuel hw hf
  | vObj fs =>
    rw [show serConfigVal (.vObj fs) n = serObjAS fs n from rfl]
    exact parseF_val_serObjAS fs n w rest fuel hw hf

theorem parseF_members_serTopItems (fs : ConfigObj) (q m : Nat)
    (w rest : PyStr) (fuel : Nat) (hne : fs ≠ []) (hw : w.all isJsonWs = true)
    (hf : costTM fs ≤ fuel) :
    parseF fuel PMode.members
        (w ++ (serTopItems fs q ++ ('\n' :: (ind m ++ (rb :: rest))))) =
      some (Json.obj (fs.map fun e => (e.1, configValJson e.2)), rest) := by
  induction fs generalizing w fuel with
  | nil => exact absurd rfl hne
  | cons e r ih =>
    obtain ⟨k, v⟩ := e
    have hc : valCostTop v + 1 + costTM r = costTM ((k, v) :: r) := by
      simp [costTM]
    obtain ⟨f, rfl⟩ : ∃ f, fuel = f + 1 := ⟨fuel - 1, by omega⟩
    have hfv : valCostTop v ≤ f := by omega
    cases r with
    | nil =>
      rw [show serTopItems [(k, v)] q = serStr k ++ ':' :: ' ' ::
        serConfigVal v q from rfl]
      simp only [List.append_assoc, List.cons_append]
      have hskip : skipWs (w ++ (serStr k ++ (':' :: ' ' :: (serConfigVal v q ++
          ('\n' :: (ind m ++ (rb :: rest))))))) = '"' :: (escapeStr k ++
            ('"' :: (':' :: ' ' :: (serConfigVal v q ++
              ('\n' :: (ind m ++ (rb :: rest))))))) := by
        rw [skipWs_append_ws _ _ hw, serStr, List.cons_append,
          skipWs_cons_nws _ _ (by decide)]
        simp [List.append_assoc]
      have hval := parseF_val_serConfigVal v q [' ']
        ('\n' :: (ind m ++ (rb :: rest))) f (by decide) hfv
      simp only [List.cons_append, List.nil_append] at hval
      have hsk3 : skipWs ('\n' :: (ind m ++ (rb :: rest))) = rb :: rest := by
        rw [skipWs_cons_ws _ _ (by decide), skipWs_ind,
          skipWs_cons_nws _ _ (by decide)]
      rw [parseF.eq_def]
      simp only [hskip]
      have hc1 : skipWs (':' :: ' ' :: (serConfigVal v q ++
          ('\n' :: (ind m ++ (rb :: rest))))) =
          ':' :: ' ' :: (serConfigVal v q ++ ('\n' :: (ind m ++ (rb :: rest)))) :=
        skipWs_cons_nws _ _ (by decide)
      simp only [parseStringChars_escape, hc1, hval, hsk3]
      simp [rb]
    | cons e2 r2 =>
      rw [show serTopItems ((k, v) :: e2 :: r2) q = serStr k ++ ':' :: ' ' ::
        serConfigVal v q ++ ',' :: '\n' :: (ind q ++ serTopItems (e2 :: r2) q) from rfl]
      simp only [List.append_assoc, List.cons_append]
      have hskip : skipWs (w ++ (serStr k ++ (':' :: ' ' :: (serConfigVal v q ++
          (',' :: '\n' :: (ind q ++ (serTopItems (e2 :: r2) q ++
            ('\n' :: (ind m ++ (rb :: rest)))))))))) = '"' :: (escapeStr k ++
            ('"' :: (':' :: ' ' :: (serConfigVal v q ++
              (',' :: '\n' :: (ind q ++ (serTopItems (e2 :: r2) q ++
                ('\n' :: (ind m ++ (rb :: rest)))))))))) := by
        rw [skipWs_append_ws _ _ hw, serStr, List.cons_append,
          skipWs_cons_nws _ _ (by decide)]
        simp [List.append_assoc]
      have hval := parseF_val_serConfigVal v q [' ']
        (',' :: '\n' :: (ind q ++ (serTopItems (e2 :: r2) q ++
          ('\n' :: (ind m ++ (rb :: rest)))))) f (by decide) hfv
      simp only [List.cons_append, List.nil_append] at hval
      have hrec := ih ('\n' :: ind q) f (by simp) (all_ws_nl_ind q)
        (by rw [← hc] at hf; omega)
      simp only [List.cons_append, List.append_assoc] at hrec
      rw [parseF.eq_def]
      simp only [hskip]
      simp [parseStringChars_escape, skipWs_cons_nws _ _ (show isJsonWs ':' = false
        from by decide), hval, skipWs_cons_nws _ _ (show isJsonWs ',' = false
        from by decide), hrec]

theorem parseF_val_serConfig (c : ConfigObj) (fuel : Nat) (hne : c ≠ [])
    (hf : costTM c + 1 ≤ fuel) :
    parseF fuel PMode.val (serConfig c) = some (configJson c, []) := by
  obtain ⟨f, rfl⟩ : ∃ f, fuel = f + 1 := ⟨fuel - 1, by omega⟩
  cases c with
  | nil => exact absurd rfl hne
  | cons e r =>
    have hser : serConfig (e :: r) = lb :: ('\n' :: (ind 4 ++
        (serTopItems (e :: r) 4 ++ ('\n' :: (ind 0 ++ (rb :: ([] : PyStr))))))) := by
      rw [show serConfig (e :: r) = lb :: '\n' :: (ind 4 ++ serTopItems (e :: r) 4 ++
        '\n' :: [rb]) from rfl, show (ind 0 : PyStr) = [] from rfl]
      simp [List.append_assoc]
    have hskip : skipWs (serConfig (e :: r)) = lb :: ('\n' :: (ind 4 ++
        (serTopItems (e :: r) 4 ++ ('\n' :: (ind 0 ++ (rb :: ([] : PyStr))))))) := by
      rw [hser, skipWs_cons_nws _ _ (by decide)]
    obtain ⟨t, ht⟩ := serTopItems_shape (e :: r) 4 (by simp)
    have hsk2 : skipWs ('\n' :: (ind 4 ++ (serTopItems (e :: r) 4 ++
        ('\n' :: (ind 0 ++ (rb :: ([] : PyStr))))))) = '"' :: (t ++
          ('\n' :: (ind 0 ++ (rb :: ([] : PyStr))))) := by
      rw [skipWs_cons_ws _ _ (by decide), skipWs_ind, ht, List.cons_append,
        skipWs_cons_nws _ _ (by decide)]
    have hmem := parseF_members_serTopItems (e :: r) 4 0 ('\n' :: ind 4) [] f
      (by simp) (all_ws_nl_ind 4) (by omega)
    simp only [List.cons_append, List.append_assoc] at hmem
    conv_lhs => rw [show serConfig (e :: r) = ([] : PyStr) ++ serConfig (e :: r) from
      (List.nil_append _).symm]
    rw [parseF.eq_def]
    simp only [List.nil_append, hskip, hsk2]
    simp [show ¬lb = '"' from by decide, show ¬('"' : Char) = rb from by decide,
      hmem, configJson]

theorem length_serStr (s : PyStr) : 2 ≤ (serStr s).length := by
  simp [serStr]

theorem length_serArrItems (ss : List PyStr) (q : Nat) (hne : ss ≠ []) :
    2 * ss.length ≤ (serArrItems ss q).length := by
  induction ss with
  | nil => exact absurd rfl hne
  | cons s r ih =>
    cases r with
    | nil =>
      rw [show serArrItems [s] q = serStr s from rfl]
      have h1 := length_serStr s
      simp only [List.length_cons, List.length_nil]
      omega
    | cons s2 r2 =>
      rw [show serArrItems (s :: s2 :: r2) q = serStr s ++ ',' :: '\n' ::
        (ind q ++ serArrItems (s2 :: r2) q) from rfl]
      have h1 := length_serStr s
      have h2 := ih (by simp)
      simp only [List.length_append, List.length_cons, ind,
        List.length_replicate] at h2 ⊢
      omega

theorem length_serArr (ss : List PyStr) (n : Nat) :
    ss.length + 2 ≤ (serArr ss n).length := by
  cases ss with
  | nil =>
    rw [show serArr [] n = ['[', ']'] from rfl]
    simp
  | cons s r =>
    rw [show serArr (s :: r) n = '[' :: '\n' :: (ind (n + 4) ++
      serArrItems (s :: r) (n + 4) ++ '\n' :: (ind n ++ [']'])) from rfl]
    have h1 := length_serArrItems (s :: r) (n + 4) (by simp)
    simp only [List.length_append, List.length_cons, List.length_nil, ind,
      List.length_replicate] at h1 ⊢
    omega

theorem length_serObjItems (fs : List (PyStr × List PyStr)) (q : Nat)
    (hne : fs ≠ []) : costMA fs ≤ (serObjItems fs q).length := by
  induction fs with
  | nil => exact absurd rfl hne
  | cons e r ih =>
    obtain ⟨k, v⟩ := e
    cases r with
    | nil =>
      rw [show serObjItems [(k, v)] q = serStr k ++ ':' :: ' ' :: serArr v q from rfl]
      have h1 := length_serStr k
      have h2 := length_serArr v q
      simp only [costMA, List.map_cons, List.map_nil, List.sum_cons,
        List.sum_nil, List.length_append, List.length_cons]
      omega
    | cons e2 r2 =>
      rw [show serObjItems ((k, v) :: e2 :: r2) q = serStr k ++ ':' :: ' ' ::
        serArr v q ++ ',' :: '\n' :: (ind q ++ serObjItems (e2 :: r2) q) from rfl]
      have h1 := length_serStr k
      have h2 := length_serArr v q
      have h3 := ih (by simp)
      simp only [costMA, List.map_cons, List.sum_cons, List.length_append,
        List.length_cons, ind, List.length_replicate] at h3 ⊢
      omega

theorem length_serObjAS (fs : List (PyStr × List PyStr)) (n : Nat) :
    costMA fs + 1 ≤ (serObjAS fs n).length := by
  cases fs with
  | nil =>
    rw [show serObjAS [] n = [lb, rb] from rfl]
    simp [costMA]
  | cons e r =>
    rw [show serObjAS (e :: r) n = lb :: '\n' :: (ind (n + 4) ++
      serObjItems (e :: r) (n + 4) ++ '\n' :: (ind n ++ [rb])) from rfl]
    have h1 := length_serObjItems (e :: r) (n + 4) (by simp)
    simp only [List.length_append, List.length_cons, List.length_nil, ind,
      List.length_replicate] at h1 ⊢
    omega

theorem length_serConfigVal (v : ConfigVal) (n : Nat) :
    valCostTop v ≤ (serConfigVal v n).length := by
  cases v with
  | vStr s =>
    rw [show serConfigVal (.vStr s) n = serStr s from rfl]
    have := length_serStr s
    simp only [valCostTop]
    omega
  | vArr ss =>
    rw [show serConfigVal (.vArr ss) n = serArr ss n from rfl]
    exact length_serArr ss n
  | vObj fs =>
    rw [show serConfigVal (.vObj fs) n = serObjAS fs n from rfl]
    exact length_serObjAS fs n

theorem length_serTopItems (fs : ConfigObj) (q : Nat) (hne : fs ≠ []) :
    costTM fs ≤ (serTopItems fs q).length := by
  induction fs with
  | nil => exact absurd rfl hne
  | cons e r ih =>
    obtain ⟨k, v⟩ := e
    cases r with
    | nil =>
      rw [show serTopItems [(k, v)] q = serStr k ++ ':' :: ' ' ::
        serConfigVal v q from rfl]
      have h1 := length_serStr k
      have h2 := length_serConfigVal v q
      simp only [costTM, List.map_cons, List.map_nil, List.sum_cons,
        List.sum_nil, List.length_append, List.length_cons]
      omega
    | cons e2 r2 =>
      rw [show serTopItems ((k, v) :: e2 :: r2) q = serStr k ++ ':' :: ' ' ::
        serConfigVal v q ++ ',' :: '\n' :: (ind q ++ serTopItems (e2 :: r2) q) from rfl]
      have h1 := length_serStr k
      have h2 := length_serConfigVal v q
      have h3 := ih (by simp)
      simp only [costTM, List.map_cons, List.sum_cons, List.length_append,
        List.length_cons, ind, List.length_replicate] at h3 ⊢
      omega

theorem length_serConfig (c : ConfigObj) : costTM c ≤ (serConfig c).length := by
  cases c with
  | nil =>
    rw [show serConfig [] = [lb, rb] from rfl]
    simp [costTM]
  | cons e r =>
    rw [show serConfig (e :: r) = lb :: '\n' :: (ind 4 ++ serTopItems (e :: r) 4 ++
      '\n' :: [rb]) from rfl]
    have h1 := length_serTopItems (e :: r) 4 (by simp)
    simp only [List.length_append, List.length_cons, List.length_nil, ind,
      List.length_replicate] at h1 ⊢
    omega

theorem parseJson_serConfig (c : ConfigObj) (hne : c ≠ []) :
    parseJson (serConfig c) = some (configJson c) := by
  have hb := length_serConfig c
  rw [parseJson, parseF_val_serConfig c _ hne (by omega)]
  simp [skipWs]

theorem pyStrip_newline (c0 cl : Char) (y : PyStr)
    (h0 : isPyWs c0 = false) (hl : isPyWs cl = false) :
    pyStrip ((c0 :: (y ++ [cl])) ++ ['\n']) = c0 :: (y ++ [cl]) := by
  rw [pyStrip, List.cons_append, List.dropWhile_cons, if_neg (by simp [h0])]
  have hrev : ((c0 :: ((y ++ [cl]) ++ ['\n'])) : PyStr).reverse =
      '\n' :: (cl :: (y.reverse ++ [c0])) := by
    simp [List.reverse_append]
  rw [hrev, List.dropWhile_cons, if_pos (by decide), List.dropWhile_cons,
    if_neg (by simp [hl])]
  simp [List.reverse_append]

theorem pyStrip_save (c : ConfigObj) (hne : c ≠ []) :
    pyStrip (save_mpyproject c) = serConfig c := by
  cases c with
  | nil => exact absurd rfl hne
  | cons e r =>
    have hshape : serConfig (e :: r) = lb :: (('\n' :: (ind 4 ++
        serTopItems (e :: r) 4 ++ ['\n'])) ++ [rb]) := by
      rw [show serConfig (e :: r) = lb :: '\n' :: (ind 4 ++ serTopItems (e :: r) 4 ++
        '\n' :: [rb]) from rfl]
      simp [List.append_assoc]
    rw [save_mpyproject, hshape,
      pyStrip_newline lb rb ('\n' :: (ind 4 ++ serTopItems (e :: r) 4 ++ ['\n']))
        (by decide) (by decide)]

theorem load_save_roundtrip_core (c : ConfigObj) (hne : c ≠ [])
    (hcbf : cbfObj c = true) :
    load_mpyproject (save_mpyproject c) = configJson c := by
  have h1 : pyStrip (save_mpyproject c) = serConfig c := pyStrip_save c hne
  have h2 : serConfig c ≠ [] := by
    cases c with
    | nil => exact absurd rfl hne
    | cons e r =>
      rw [show serConfig (e :: r) = lb :: '\n' :: (ind 4 ++ serTopItems (e :: r) 4 ++
        '\n' :: [rb]) from rfl]
      simp
  have h3 : stripTC (serConfig c) = serConfig c :=
    stripTC_id _ (unarmed_serConfig c hcbf)
  simp only [load_mpyproject, h1, if_neg h2, h3, parseJson_serConfig c hne]

/-- C3 counterexample: the configuration whose exclude list contains the
pattern with a comma directly before a closing bracket does not round-trip:
the trailing-comma removal of load_mpyproject deletes the comma inside the
string, so the reloaded structure differs from the saved one exactly there. -/
theorem save_load_not_roundtrip :
    load_mpyproject (save_mpyproject
        [(pyS "deploy", ConfigVal.vObj [(pyS "/", [pyS "./"])]),
         (pyS "exclude", ConfigVal.vArr [['x', ',', ']']])]) ≠
      configJson [(pyS "deploy", ConfigVal.vObj [(pyS "/", [pyS "./"])]),
        (pyS "exclude", ConfigVal.vArr [['x', ',', ']']])] ∧
    load_mpyproject (save_mpyproject
        [(pyS "deploy", ConfigVal.vObj [(pyS "/", [pyS "./"])]),
         (pyS "exclude", ConfigVal.vArr [['x', ',', ']']])]) =
      configJson [(pyS "deploy", ConfigVal.vObj [(pyS "/", [pyS "./"])]),
        (pyS "exclude", ConfigVal.vArr [['x', ']']])] := by
  constructor
  · intro h
    rw [show load_mpyproject (save_mpyproject
        [(pyS "deploy", ConfigVal.vObj [(pyS "/", [pyS "./"])]),
         (pyS "exclude", ConfigVal.vArr [['x', ',', ']']])]) =
      configJson [(pyS "deploy", ConfigVal.vObj [(pyS "/", [pyS "./"])]),
        (pyS "exclude", ConfigVal.vArr [['x', ']']])] from rfl] at h
    simp [configJson, configValJson] at h
  · rfl

/-- C3 amended: saving then reloading a configuration with deploy mapping
and exclude list yields an equal structure, provided no string of the
configuration contains a comma followed by optional spaces and a closing
square bracket or brace (the pattern the trailing-comma removal of
load_mpyproject corrupts inside string literals). -/
theorem save_load_roundtrip_cbf (c : ConfigObj)
    (hcbf : cbfObj c = true)
    (hdep : ∃ dep, (pyS "deploy", ConfigVal.vObj dep) ∈ c)
    (hexc : ∃ exc, (pyS "exclude", ConfigVal.vArr exc) ∈ c)
    (hnodup : (c.map Prod.fst).Nodup) :
    load_mpyproject (save_mpyproject c) = configJson c := by
  obtain ⟨dep, hdep⟩ := hdep
  have hne : c ≠ [] := by
    rintro rfl
    simp at hdep
  exact load_save_roundtrip_core c hne hcbf

/-- C3 amended witness: a full configuration with name, deploy and exclude
round-trips through the file. -/
theorem save_load_roundtrip_cbf_witness :
    load_mpyproject (save_mpyproject
        [(pyS "name", ConfigVal.vStr (pyS "demo")),
         (pyS "deploy", ConfigVal.vObj [(pyS "/", [pyS "./"])]),
         (pyS "exclude", ConfigVal.vArr [pyS "*.pyc"])]) =
      configJson [(pyS "name", ConfigVal.vStr (pyS "demo")),
        (pyS "deploy", ConfigVal.vObj [(pyS "/", [pyS "./"])]),
        (pyS "exclude", ConfigVal.vArr [pyS "*.pyc"])] :=
  save_load_roundtrip_cbf _ (by decide)
    ⟨[(pyS "/", [pyS "./"])], by decide⟩ ⟨[pyS "*.pyc"], by decide⟩ (by decide)

/-- C9: content that strips to empty, and content whose stripped and
comma-corrected text fails to parse, both load as the empty
configuration. -/
theorem load_mpyproject_lenient (content : PyStr)
    (h : pyStrip content = [] ∨ parseJson (stripTC (pyStrip content)) = none) :
    load_mpyproject content = Json.obj [] := by
  rcases h with h | h
  · simp [load_mpyproject, h]
  · by_cases he : pyStrip content = []
    · simp [load_mpyproject, he]
    · simp [load_mpyproject, he, h]

/-- C9 witness: unparseable content loads as the empty configuration. -/
theorem load_mpyproject_lenient_witness :
    load_mpyproject (pyS "not valid json at all") = Json.obj [] :=
  load_mpyproject_lenient (pyS "not valid json at all") (Or.inr (by rfl))

theorem jsonStrList_map (ss : List PyStr) :
    jsonStrList (ss.map Json.str) = some ss := by
  induction ss with
  | nil => rfl
  | cons s r ih => simp [jsonStrList, ih]

theorem jsonDeployFields_map (fs : List (PyStr × List PyStr)) :
    jsonDeployFields (fs.map fun e => (e.1, Json.arr (e.2.map Json.str))) =
      some fs := by
  induction fs with
  | nil => rfl
  | cons e r ih =>
    obtain ⟨k, v⟩ := e
    simp [jsonDeployFields, jsonStrList_map, ih]

theorem jsonToConfigVal_configValJson (v : ConfigVal) :
    jsonToConfigVal (configValJson v) = some v := by
  cases v with
  | vStr s => rfl
  | vArr ss => simp [configValJson, jsonToConfigVal, jsonStrList_map]
  | vObj fs => simp [configValJson, jsonToConfigVal, jsonDeployFields_map]

theorem jsonToConfigFields_map (c : ConfigObj) :
    jsonToConfigFields (c.map fun e => (e.1, configValJson e.2)) = some c := by
  induction c with
  | nil => rfl
  | cons e r ih =>
    obtain ⟨k, v⟩ := e
    simp [jsonToConfigFields, jsonToConfigVal_configValJson, ih]

theorem jsonToConfigObj_configJson (c : ConfigObj) :
    jsonToConfigObj (configJson c) = some c := by
  simp [configJson, jsonToConfigObj, jsonToConfigFields_map]

theorem setConfigDeploy_ne_nil (c : ConfigObj) (d : List (PyStr × List PyStr)) :
    setConfigDeploy c d ≠ [] := by
  by_cases h : lookupL (pyS "deploy") c = none
  · rw [setConfigDeploy, if_pos h]
    simp
  · rw [setConfigDeploy, if_neg h]
    refine setFirst_ne_nil _ _ _ ?_
    intro hx
    rw [hx] at h
    exact h rfl

theorem configDeploy_setConfigDeploy (c : ConfigObj) (d : List (PyStr × List PyStr)) :
    configDeploy (setConfigDeploy c d) = some d := by
  by_cases h : lookupL (pyS "deploy") c = none
  · have h1 : lookupL (pyS "deploy") (setConfigDeploy c d) =
        some (ConfigVal.vObj d) := by
      rw [setConfigDeploy, if_pos h]
      exact lookupL_append_self _ _ _ h
    simp [configDeploy, h1]
  · have h1 : lookupL (pyS "deploy") (setConfigDeploy c d) =
        some (ConfigVal.vObj d) := by
      rw [setConfigDeploy, if_neg h]
      exact lookupL_setFirst _ _ _ h
    simp [configDeploy, h1]

/-- C10 counterexample: a second add of the same path after a first is not
a no-op in the program.  Adding the relative path with a comma directly
before a closing bracket writes the file; reloading that file corrupts the
stored entry (the trailing-comma removal of load_mpyproject deletes the
comma inside the string literal), so a second add of the same path no
longer finds it, appends again and rewrites the file. -/
theorem add_to_deploy_second_add_corrupted :
    add_to_deploy_file (save_mpyproject
        [(pyS "deploy", ConfigVal.vObj [(pyS "/", [])])])
        ['x', ',', ']'] (pyS "/") false =
      some (save_mpyproject
        [(pyS "deploy", ConfigVal.vObj [(pyS "/", [['x', ',', ']']])])]) ∧
    add_to_deploy_file (save_mpyproject
        [(pyS "deploy", ConfigVal.vObj [(pyS "/", [['x', ',', ']']])])])
        ['x', ',', ']'] (pyS "/") false =
      some (save_mpyproject
        [(pyS "deploy", ConfigVal.vObj [(pyS "/", [['x', ']'], ['x', ',', ']']])])]) ∧
    add_to_deploy_file (save_mpyproject
        [(pyS "deploy", ConfigVal.vObj [(pyS "/", [['x', ',', ']']])])])
        ['x', ',', ']'] (pyS "/") false ≠ none := by
  refine ⟨rfl, rfl, ?_⟩
  intro h
  rw [show add_to_deploy_file (save_mpyproject
      [(pyS "deploy", ConfigVal.vObj [(pyS "/", [['x', ',', ']']])])])
      ['x', ',', ']'] (pyS "/") false =
    some (save_mpyproject
      [(pyS "deploy", ConfigVal.vObj [(pyS "/", [['x', ']'], ['x', ',', ']']])])])
    from rfl] at h
  exact Option.noConfusion h

/-- C10 amended: when the relative path is already present in the loaded
deploy mapping at the normalized destination, add_to_deploy leaves the
configuration file unchanged; and a first add followed by a second add of
the same path writes once and then is a no-op, provided the configuration
written by the first add contains no comma followed by optional spaces and
a closing bracket, so that the saved file reloads to exactly what was
written.  For paths containing that pattern the reload corrupts the entry
and the second add writes again. -/
theorem add_to_deploy_file_no_duplicate (content rel dest : PyStr) (ad : Bool)
    (cfg : ConfigObj)
    (hload : jsonToConfigObj (load_mpyproject content) = some cfg) :
    (rel ∈ (lookupL (normalize_dest dest)
        (eff_deploy (configDeploy cfg) ad)).getD [] →
      add_to_deploy_file content rel dest ad = none) ∧
    (∀ d2, add_to_deploy (configDeploy cfg) rel dest ad = some d2 →
      cbfObj (setConfigDeploy cfg d2) = true →
      add_to_deploy_file content rel dest ad =
        some (save_mpyproject (setConfigDeploy cfg d2)) ∧
      add_to_deploy_file (save_mpyproject (setConfigDeploy cfg d2)) rel dest ad =
        none) := by
  constructor
  · intro hmem
    have h1 := (add_to_deploy_no_duplicate (configDeploy cfg) rel dest ad).1 hmem
    simp [add_to_deploy_file, hload, h1]
  · intro d2 hadd hcbf
    constructor
    · simp [add_to_deploy_file, hload, hadd]
    · have hne := setConfigDeploy_ne_nil cfg d2
      have hload2 : load_mpyproject (save_mpyproject (setConfigDeploy cfg d2)) =
          configJson (setConfigDeploy cfg d2) :=
        load_save_roundtrip_core _ hne hcbf
      have h2 : add_to_deploy (configDeploy (setConfigDeploy cfg d2)) rel dest ad =
          none := by
        rw [configDeploy_setConfigDeploy]
        exact (add_to_deploy_no_duplicate (configDeploy cfg) rel dest ad).2 d2 hadd
      simp [add_to_deploy_file, hload2, jsonToConfigObj_configJson, h2]

/-- C10 amended witness: at the file level, a present path is not
re-added; a fresh clean path is written once by the first add and the
second identical add is a no-op. -/
theorem add_to_deploy_file_no_duplicate_witness :
    add_to_deploy_file (save_mpyproject
        [(pyS "deploy", ConfigVal.vObj [(pyS "/", [pyS "a.py"])])])
        (pyS "a.py") (pyS "/") false = none ∧
    add_to_deploy_file (save_mpyproject
        [(pyS "deploy", ConfigVal.vObj [(pyS "/", [pyS "a.py"])])])
        (pyS "b.py") (pyS "/") false =
      some (save_mpyproject
        [(pyS "deploy", ConfigVal.vObj [(pyS "/", [pyS "a.py", pyS "b.py"])])]) ∧
    add_to_deploy_file (save_mpyproject
        [(pyS "deploy", ConfigVal.vObj [(pyS "/", [pyS "a.py", pyS "b.py"])])])
        (pyS "b.py") (pyS "/") false = none := by
  have h1 := (add_to_deploy_file_no_duplicate
    (save_mpyproject [(pyS "deploy", ConfigVal.vObj [(pyS "/", [pyS "a.py"])])])
    (pyS "a.py") (pyS "/") false
    [(pyS "deploy", ConfigVal.vObj [(pyS "/", [pyS "a.py"])])] (by rfl)).1
    (by decide)
  have h2 := (add_to_deploy_file_no_duplicate
    (save_mpyproject [(pyS "deploy", ConfigVal.vObj [(pyS "/", [pyS "a.py"])])])
    (pyS "b.py") (pyS "/") false
    [(pyS "deploy", ConfigVal.vObj [(pyS "/", [pyS "a.py"])])] (by rfl)).2
    [(pyS "/", [pyS "a.py", pyS "b.py"])] (by decide) (by decide)
  exact ⟨h1, h2.1, h2.2⟩
